import Mathlib

/-!
Verification of the Quoridor rules engine and minimax decision engine.

The definitions below are a shallow embedding of the game logic
(`game_logic.py`) and the AI search (`ai.py`): positions and wall anchors
are integer pairs, the wall collection is a `Finset` keyed by structural
equality, and every fallible operation returns a `Bool × Game` pair giving
the success flag and the (possibly unchanged) engine afterwards.
-/

namespace Quoridor

/-- Player identification: `P1` starts at the bottom (row 8) and aims for
row 0, `P2` starts at the top (row 0) and aims for the last row. -/
inductive Player
  | P1
  | P2
deriving DecidableEq

/-- The two wall orientations. -/
inductive Orientation
  | horizontal
  | vertical
deriving DecidableEq

/-- A wall anchored at an intersection slot; identity is structural over
all three fields. -/
structure Wall where
  row : ℤ
  col : ℤ
  orientation : Orientation
deriving DecidableEq

/-- A board position as a (row, column) pair of integers. -/
abbrev Pos := ℤ × ℤ

/-- The complete game snapshot, mirroring the `GameState` dataclass with
its default (classic 9×9) configuration. -/
structure GameState where
  board_size : ℤ := 9
  player1_pos : Pos := (8, 4)
  player2_pos : Pos := (0, 4)
  player1_walls : ℤ := 10
  player2_walls : ℤ := 10
  walls : Finset Wall := ∅
  current_player : Player := .P1
  game_over : Bool := false
  winner : Option Player := none
deriving DecidableEq

/-- The other player. -/
def Player.other : Player → Player
  | .P1 => .P2
  | .P2 => .P1

/-- Position of a given player in a state. -/
def pos_of (s : GameState) : Player → Pos
  | .P1 => s.player1_pos
  | .P2 => s.player2_pos

/-- Remaining walls of the current player (`get_current_player_walls`). -/
def get_current_player_walls (s : GameState) : ℤ :=
  match s.current_player with
  | .P1 => s.player1_walls
  | .P2 => s.player2_walls

/-- Bounds check (`is_valid_position`): both coordinates in `[0, board_size)`. -/
def is_valid_position (bs : ℤ) (p : Pos) : Bool :=
  decide (0 ≤ p.1 ∧ p.1 < bs ∧ 0 ≤ p.2 ∧ p.2 < bs)

/-- Wall blocking test for one grid edge (`is_wall_between`): a vertical
step is severed by a horizontal wall anchored at the lower row and at the
column or the column minus one; a horizontal step is severed by a vertical
wall anchored at the lower column and at the row or the row minus one.
Reads only the wall set. -/
def is_wall_between (walls : Finset Wall) (pos1 pos2 : Pos) : Bool :=
  let r1 := pos1.1
  let c1 := pos1.2
  let r2 := pos2.1
  let c2 := pos2.2
  let vert : Bool :=
    if c1 = c2 then
      let wall_row := if r2 < r1 then r1 - 1 else r1
      decide (∃ w ∈ walls, w.orientation = Orientation.horizontal ∧
        w.row = wall_row ∧ (w.col = c1 ∨ w.col = c1 - 1))
    else false
  let horiz : Bool :=
    if r1 = r2 then
      let wall_col := if c2 < c1 then c1 - 1 else c1
      decide (∃ w ∈ walls, w.orientation = Orientation.vertical ∧
        w.col = wall_col ∧ (w.row = r1 ∨ w.row = r1 - 1))
    else false
  vert || horiz

/-- The four cardinal direction offsets, in the source's enumeration
order: up, down, left, right. -/
def directions : List Pos := [(-1, 0), (1, 0), (0, -1), (0, 1)]

/-- Move one step from `p` in direction `d`. -/
def step (p d : Pos) : Pos := (p.1 + d.1, p.2 + d.2)

/-- The two diagonal cells tried when a straight jump in direction `d`
over the opponent-occupied cell `n` is impossible: for a horizontal step
the cells one row up and down from `n`, for a vertical step the cells one
column left and right of `n`. -/
def side_step_cells (n d : Pos) : List Pos :=
  if d.1 = 0 then ([-1, 1] : List ℤ).map (fun ddr => ((n.1 + ddr, n.2) : Pos))
  else ([-1, 1] : List ℤ).map (fun ddc => ((n.1, n.2 + ddc) : Pos))

/-- The candidate destinations contributed by a single cardinal direction
in `get_valid_moves`: the direct cell when free, the straight jump over an
adjacent opponent when possible, otherwise the side-step diagonals each
filtered by its own bounds and wall check. -/
def moves_in_dir (s : GameState) (player : Player) (d : Pos) : List Pos :=
  let current_pos := pos_of s player
  let opponent_pos := pos_of s player.other
  let n := step current_pos d
  if !(is_valid_position s.board_size n) then []
  else if is_wall_between s.walls current_pos n then []
  else if n = opponent_pos then
    let j := step n d
    if is_valid_position s.board_size j && !(is_wall_between s.walls opponent_pos j) then [j]
    else
      (side_step_cells n d).filter
        (fun q => is_valid_position s.board_size q && !(is_wall_between s.walls opponent_pos q))
  else [n]

/-- All valid moves for a player (`get_valid_moves`): the four cardinal
directions are examined in order and each contributes its candidates. -/
def get_valid_moves (s : GameState) (player : Player) : List Pos :=
  directions.flatMap (moves_in_dir s player)

/-- Goal row of a player: row 0 for `P1`, the last row for `P2`. -/
def goal_row (bs : ℤ) : Player → ℤ
  | .P1 => 0
  | .P2 => bs - 1

/-- The unblocked on-board neighbours of a cell, as explored by the
breadth-first searches. -/
def neighbor_list (bs : ℤ) (walls : Finset Wall) (p : Pos) : List Pos :=
  directions.filterMap (fun d =>
    let q := step p d
    if is_valid_position bs q && !(is_wall_between walls p q) then some q else none)

/-- One round of frontier expansion of the breadth-first search: keep the
visited set and add every unblocked on-board neighbour of a visited cell. -/
def expand (bs : ℤ) (walls : Finset Wall) (S : Finset Pos) : Finset Pos :=
  S ∪ S.biUnion (fun p => (neighbor_list bs walls p).toFinset)

/-- Enough expansion rounds to exhaust the board: one more than the number
of cells. -/
def bfs_fuel (bs : ℤ) : ℕ := bs.toNat ^ 2 + 1

/-- The set of cells the breadth-first search visits from `start`. -/
def reach_set (bs : ℤ) (walls : Finset Wall) (start : Pos) : Finset Pos :=
  (expand bs walls)^[bfs_fuel bs] {start}

/-- Breadth-first reachability of the goal row (`_has_path_to_goal`):
true iff the search from `start` meets a cell of the player's goal row. -/
def has_path_to_goal (bs : ℤ) (walls : Finset Wall) (start : Pos) (player : Player) : Bool :=
  decide (∃ c ∈ reach_set bs walls start, c.1 = goal_row bs player)

/-- Length of the shortest path to the goal row
(`get_shortest_path_length`): the first expansion round at which the goal
row is met, `none` when the goal row is unreachable. -/
def get_shortest_path_length (bs : ℤ) (walls : Finset Wall) (start : Pos) (player : Player) :
    Option ℕ :=
  (List.range (bfs_fuel bs + 1)).find? (fun k =>
    decide (∃ c ∈ (expand bs walls)^[k] {start}, c.1 = goal_row bs player))

/-- The cells the bounds check accepts, as a finite set. -/
def valid_cells (bs : ℤ) : Finset Pos :=
  Finset.Icc 0 (bs - 1) ×ˢ Finset.Icc 0 (bs - 1)

/-- Abstract reachability over the 4-adjacency grid graph with
wall-blocked edges removed: the reflexive-transitive closure of the
neighbour relation explored by the breadth-first searches. -/
def reaches (bs : ℤ) (walls : Finset Wall) : Pos → Pos → Prop :=
  Relation.ReflTransGen (fun a b => b ∈ neighbor_list bs walls a)

/-- The connectivity invariant of a state: both players stand on the board
and the breadth-first search from each player's position reaches that
player's goal row. -/
def conn_ok (s : GameState) : Prop :=
  is_valid_position s.board_size s.player1_pos = true ∧
  is_valid_position s.board_size s.player2_pos = true ∧
  has_path_to_goal s.board_size s.walls s.player1_pos .P1 = true ∧
  has_path_to_goal s.board_size s.walls s.player2_pos .P2 = true

/-- Agreement of two states on the fields the connectivity invariant and
the undo reversal read: board size, both positions and the wall set. -/
def board_eq (s₁ s₂ : GameState) : Prop :=
  s₁.board_size = s₂.board_size ∧ s₁.player1_pos = s₂.player1_pos ∧
    s₁.player2_pos = s₂.player2_pos ∧ s₁.walls = s₂.walls

/-- Overlap or crossing of two walls (`_walls_overlap`): identical anchors
always conflict; same-orientation walls conflict when collinear with
anchors at distance at most one; perpendicular walls conflict exactly when
they share the same anchor. -/
def walls_overlap (wall1 wall2 : Wall) : Bool :=
  if wall1.row = wall2.row ∧ wall1.col = wall2.col then true
  else if wall1.orientation = wall2.orientation then
    if wall1.orientation = Orientation.horizontal then
      decide (wall1.row = wall2.row ∧ |wall1.col - wall2.col| ≤ 1)
    else
      decide (wall1.col = wall2.col ∧ |wall1.row - wall2.row| ≤ 1)
  else
    decide (wall1.row = wall2.row ∧ wall1.col = wall2.col)

/-- Wall-placement legality (`can_place_wall`): wall budget, bounds,
no duplicate, no overlap or crossing, and both players keep a
breadth-first-reachable path to their goal rows after a hypothetical
insertion. -/
def can_place_wall (s : GameState) (wall : Wall) : Bool :=
  if get_current_player_walls s ≤ 0 then false
  else if !(decide (0 ≤ wall.row ∧ wall.row < s.board_size - 1 ∧
      0 ≤ wall.col ∧ wall.col < s.board_size - 1)) then false
  else if wall ∈ s.walls then false
  else if decide (∃ w ∈ s.walls, walls_overlap wall w = true) then false
  else
    has_path_to_goal s.board_size (insert wall s.walls) s.player1_pos .P1 &&
      has_path_to_goal s.board_size (insert wall s.walls) s.player2_pos .P2

/-- One undo record (entries of `move_history`). -/
inductive MoveRecord
  | move (player : Player) (old_pos new_pos : Pos)
  | wall (player : Player) (w : Wall)
deriving DecidableEq

/-- The engine: its canonical state plus the undo history, most recent
record first. -/
structure Game where
  state : GameState
  history : List MoveRecord
deriving DecidableEq

/-- The fresh engine produced by construction or `reset`. -/
def initial_game : Game := { state := {}, history := [] }

/-- Win detection (`_check_win`): `P1` wins on reaching row 0, else `P2`
wins on reaching the last row. -/
def check_win (s : GameState) : GameState :=
  if s.player1_pos.1 = 0 then { s with game_over := true, winner := some .P1 }
  else if s.player2_pos.1 = s.board_size - 1 then { s with game_over := true, winner := some .P2 }
  else s

/-- Turn alternation (`_switch_player`). -/
def switch_player (s : GameState) : GameState :=
  { s with current_player := s.current_player.other }

/-- The mover's position updated. -/
def moved_state (s : GameState) (player : Player) (new_pos : Pos) : GameState :=
  match player with
  | .P1 => { s with player1_pos := new_pos }
  | .P2 => { s with player2_pos := new_pos }

/-- Token move (`move_player`): rejected unless the destination is a valid
move of the current player; on success the position is updated, an undo
record is appended, the win condition re-evaluated and the turn switched. -/
def move_player (g : Game) (new_pos : Pos) : Bool × Game :=
  if new_pos ∈ get_valid_moves g.state g.state.current_player then
    (true,
      { state := switch_player (check_win (moved_state g.state g.state.current_player new_pos)),
        history := MoveRecord.move g.state.current_player
          (pos_of g.state g.state.current_player) new_pos :: g.history })
  else (false, g)

/-- The wall inserted and the mover's counter decremented. -/
def wall_placed_state (s : GameState) (player : Player) (w : Wall) : GameState :=
  match player with
  | .P1 => { s with walls := insert w s.walls, player1_walls := s.player1_walls - 1 }
  | .P2 => { s with walls := insert w s.walls, player2_walls := s.player2_walls - 1 }

/-- Wall placement (`place_wall`): rejected unless `can_place_wall` holds;
on success the wall is inserted, the mover's counter decremented, an undo
record appended and the turn switched. -/
def place_wall (g : Game) (wall : Wall) : Bool × Game :=
  if can_place_wall g.state wall then
    (true,
      { state := switch_player (wall_placed_state g.state g.state.current_player wall),
        history := MoveRecord.wall g.state.current_player wall :: g.history })
  else (false, g)

/-- Reversal of one undo record (the body of `undo_move` once a record is
popped): restore the prior position or remove the wall and refund the
counter, switch the turn back, and clear the terminal flag and winner. -/
def undo_apply (entry : MoveRecord) (s : GameState) : GameState :=
  let s1 := match entry with
    | .move player old_pos _ =>
      match player with
      | .P1 => { s with player1_pos := old_pos }
      | .P2 => { s with player2_pos := old_pos }
    | .wall player w =>
      let s' := { s with walls := s.walls.erase w }
      match player with
      | .P1 => { s' with player1_walls := s'.player1_walls + 1 }
      | .P2 => { s' with player2_walls := s'.player2_walls + 1 }
  { switch_player s1 with game_over := false, winner := none }

/-- The connectivity invariant holds now and keeps holding along every
sequence of undo reversals of the recorded history. -/
def all_undos : List MoveRecord → GameState → Prop
  | [], s => conn_ok s
  | entry :: rest, s => conn_ok s ∧ all_undos rest (undo_apply entry s)

/-- Undo (`undo_move`): rejected on an empty history, else the most recent
record is popped and reversed. -/
def undo_move (g : Game) : Bool × Game :=
  match g.history with
  | [] => (false, g)
  | entry :: rest => (true, { state := undo_apply entry g.state, history := rest })

/-- Reset (`reset`): back to the canonical starting state with an empty
history. -/
def reset (_ : Game) : Game := initial_game

/-- The legality query with its internal state swap made explicit
(`can_place_wall` saves the canonical state, points the engine at a
hypothetical clone containing the candidate wall, runs both path searches,
and restores the saved state): returns the verdict and the engine
afterwards. -/
def can_place_wall_impl (g : Game) (wall : Wall) : Bool × Game :=
  if get_current_player_walls g.state ≤ 0 then (false, g)
  else if !(decide (0 ≤ wall.row ∧ wall.row < g.state.board_size - 1 ∧
      0 ≤ wall.col ∧ wall.col < g.state.board_size - 1)) then (false, g)
  else if wall ∈ g.state.walls then (false, g)
  else if decide (∃ w ∈ g.state.walls, walls_overlap wall w = true) then (false, g)
  else
    let test_state := { g.state with walls := insert wall g.state.walls }
    let original_state := g.state
    let g1 : Game := { g with state := test_state }
    let p1_has_path := has_path_to_goal g1.state.board_size g1.state.walls g1.state.player1_pos .P1
    let p2_has_path := has_path_to_goal g1.state.board_size g1.state.walls g1.state.player2_pos .P2
    let g2 : Game := { g1 with state := original_state }
    (p1_has_path && p2_has_path, g2)

/-- The states the engine can reach from construction through accepted
moves, wall placements, undos and resets. -/
inductive Reachable : Game → Prop
  | init : Reachable initial_game
  | move_step {g : Game} {p : Pos} : Reachable g → (move_player g p).1 = true →
      Reachable (move_player g p).2
  | wall_step {g : Game} {w : Wall} : Reachable g → (place_wall g w).1 = true →
      Reachable (place_wall g w).2
  | undo_step {g : Game} : Reachable g → (undo_move g).1 = true →
      Reachable (undo_move g).2
  | reset_step {g : Game} : Reachable g → Reachable (reset g)

/-! ### The decision engine (ai.py) -/

/-- Search scores, mirroring the Python float values the minimax code
manipulates: finite integers (every weight is integral), the two
infinities used as sentinels, and the undefined result of `inf - inf`
(every comparison with it is false, as for a float nan). -/
inductive Score
  | negInf
  | fin (z : ℤ)
  | posInf
  | nan
deriving DecidableEq

/-- Python's `<` on scores; any comparison involving nan is false. -/
def Score.slt : Score → Score → Bool
  | .nan, _ => false
  | _, .nan => false
  | .negInf, .negInf => false
  | .negInf, _ => true
  | _, .negInf => false
  | .fin a, .fin b => decide (a < b)
  | .fin _, .posInf => true
  | .posInf, _ => false

/-- Python's `<=` on scores; any comparison involving nan is false. -/
def Score.sle : Score → Score → Bool
  | .nan, _ => false
  | _, .nan => false
  | .negInf, _ => true
  | _, .negInf => false
  | .fin a, .fin b => decide (a ≤ b)
  | .fin _, .posInf => true
  | .posInf, .posInf => true
  | .posInf, _ => false

/-- Python's two-argument `max`: the second argument wins only when it is
strictly greater. -/
def Score.pymax (a b : Score) : Score := if Score.slt a b then b else a

/-- Python's two-argument `min`: the second argument wins only when it is
strictly smaller. -/
def Score.pymin (a b : Score) : Score := if Score.slt b a then b else a

/-- Python float addition restricted to the values that arise. -/
def Score.add : Score → Score → Score
  | .nan, _ => .nan
  | _, .nan => .nan
  | .posInf, .negInf => .nan
  | .negInf, .posInf => .nan
  | .posInf, _ => .posInf
  | _, .posInf => .posInf
  | .negInf, _ => .negInf
  | _, .negInf => .negInf
  | .fin a, .fin b => .fin (a + b)

/-- Python float subtraction restricted to the values that arise. -/
def Score.sub : Score → Score → Score
  | .nan, _ => .nan
  | _, .nan => .nan
  | .posInf, .posInf => .nan
  | .negInf, .negInf => .nan
  | .posInf, _ => .posInf
  | .negInf, _ => .negInf
  | .fin _, .posInf => .negInf
  | .fin _, .negInf => .posInf
  | .fin a, .fin b => .fin (a - b)

/-- Multiplication by a positive integral weight. -/
def Score.scale : Score → ℤ → Score
  | .nan, _ => .nan
  | .posInf, _ => .posInf
  | .negInf, _ => .negInf
  | .fin a, k => .fin (a * k)

/-- The AI configuration: the controlled player and the search depth the
difficulty label maps to. -/
structure QuoridorAI where
  player : Player
  max_depth : ℕ

/-- An action returned by the search: a token move or a wall placement. -/
inductive AIMove
  | move (p : Pos)
  | wall (w : Wall)
deriving DecidableEq

/-- A shortest-path result as the evaluator sees it: a finite length or
the float infinity of an unreachable goal. -/
def path_len_score : Option ℕ → Score
  | some n => .fin n
  | none => .posInf

/-- The heuristic evaluator (`_evaluate`): weighted path difference, wall
advantage, centre-column control and forward progress. The board centre is
Python's floor division `board_size // 2`, and the forward-progress term
uses the hard-coded row 8 for Player 1 exactly as the source does. -/
def evaluate (ai : QuoridorAI) (g : Game) : Score :=
  let state := g.state
  let ai_pos := pos_of state ai.player
  let opp_pos := pos_of state ai.player.other
  let ai_path := path_len_score
    (get_shortest_path_length state.board_size state.walls ai_pos ai.player)
  let opponent_path := path_len_score
    (get_shortest_path_length state.board_size state.walls opp_pos ai.player.other)
  let path_score := Score.scale (Score.sub opponent_path ai_path) 10
  let ai_walls := match ai.player with
    | .P1 => state.player1_walls
    | .P2 => state.player2_walls
  let opponent_walls := match ai.player with
    | .P1 => state.player2_walls
    | .P2 => state.player1_walls
  let wall_score := (ai_walls - opponent_walls) * 2
  let center := Int.ediv state.board_size 2
  let center_dist := |ai_pos.2 - center|
  let center_score := (center - center_dist) * 1
  let progress := match ai.player with
    | .P1 => (8 - ai_pos.1) * 2
    | .P2 => ai_pos.1 * 2
  Score.add (Score.add (Score.add path_score (.fin wall_score)) (.fin center_score))
    (.fin progress)

/-- The hypothetical engine a search node explores: a fresh engine holding
a copy of the state with an empty history, exactly as the search builds
`game_copy`. -/
def search_copy (g : Game) : Game := { state := g.state, history := [] }

/-- The maximizing player's loop body of `_minimax`: running best value
and alpha, with the beta-cutoff break. -/
def alpha_loop (f : Game → Score → Score → Score) (g : Game) :
    List Pos → Score → Score → Score → Score
  | [], max_eval, _, _ => max_eval
  | m :: rest, max_eval, alpha, beta =>
    let eval_score := f (move_player (search_copy g) m).2 alpha beta
    let max_eval' := Score.pymax max_eval eval_score
    let alpha' := Score.pymax alpha eval_score
    if Score.sle beta alpha' then max_eval'
    else alpha_loop f g rest max_eval' alpha' beta

/-- The minimizing player's loop body of `_minimax`: running best value
and beta, with the alpha-cutoff break. -/
def beta_loop (f : Game → Score → Score → Score) (g : Game) :
    List Pos → Score → Score → Score → Score
  | [], min_eval, _, _ => min_eval
  | m :: rest, min_eval, alpha, beta =>
    let eval_score := f (move_player (search_copy g) m).2 alpha beta
    let min_eval' := Score.pymin min_eval eval_score
    let beta' := Score.pymin beta eval_score
    if Score.sle beta' alpha then min_eval'
    else beta_loop f g rest min_eval' alpha beta'

/-- Minimax with alpha-beta pruning (`_minimax`): terminal states score
`±(1000 + depth)` depending on the winner, depth 0 scores by the
heuristic, and otherwise the mover's legal moves are searched one ply
deeper, maximizing or minimizing with the running window. -/
def minimax (ai : QuoridorAI) (depth : ℕ) (game : Game) (alpha beta : Score)
    (is_maximizing : Bool) : Score :=
  if game.state.game_over then
    match game.state.winner with
    | some p => if p = ai.player then .fin (1000 + depth) else .fin (-1000 - depth)
    | none => .fin (-1000 - depth)
  else match depth with
  | 0 => evaluate ai game
  | d + 1 =>
    if is_maximizing then
      alpha_loop (fun c a b => minimax ai d c a b false) game
        (get_valid_moves game.state game.state.current_player) Score.negInf alpha beta
    else
      beta_loop (fun c a b => minimax ai d c a b true) game
        (get_valid_moves game.state game.state.current_player) Score.posInf alpha beta

/-- The strategically filtered wall candidates (`_get_strategic_walls`):
legal walls anchored within Chebyshev radius 2 of the opponent, both
orientations, randomly down-sampled to 20 when more qualify; the sampling
is modelled by the `sample` parameter. -/
def get_strategic_walls (sample : List Wall → List Wall) (ai : QuoridorAI) (g : Game) :
    List Wall :=
  let state := g.state
  let opponent_pos := match ai.player with
    | .P1 => state.player2_pos
    | .P2 => state.player1_pos
  let strategic_walls := (List.range 5).flatMap (fun i =>
    (List.range 5).flatMap (fun j =>
      let row := opponent_pos.1 + (i : ℤ) - 2
      let col := opponent_pos.2 + (j : ℤ) - 2
      if 0 ≤ row ∧ row < state.board_size - 1 ∧ 0 ≤ col ∧ col < state.board_size - 1 then
        [Orientation.horizontal, Orientation.vertical].filterMap (fun o =>
          if can_place_wall state ⟨row, col, o⟩ then some (Wall.mk row col o) else none)
      else []))
  if strategic_walls.length > 20 then sample strategic_walls else strategic_walls

/-- The accumulator of the top-level selection: best action so far, best
score so far, and the running alpha. -/
abbrev TopAcc := Option AIMove × Score × Score

/-- The move phase of `_get_minimax_move`: every legal move is applied to
a fresh copy and scored one ply deep; a strictly better score displaces
the incumbent, and alpha rises with every score. -/
def top_loop_moves (ai : QuoridorAI) (d : ℕ) (g : Game) : List Pos → TopAcc → TopAcc
  | [], acc => acc
  | m :: rest, (best_move, best_score, alpha) =>
    let score := minimax ai d (move_player (search_copy g) m).2 alpha Score.posInf false
    let best' : Option AIMove × Score :=
      if Score.slt best_score score then (some (AIMove.move m), score) else (best_move, best_score)
    top_loop_moves ai d g rest (best'.1, best'.2, Score.pymax alpha score)

/-- The wall phase of `_get_minimax_move`: each candidate is re-validated
with `can_place_wall`, then placed on a fresh copy and scored. -/
def top_loop_walls (ai : QuoridorAI) (d : ℕ) (g : Game) : List Wall → TopAcc → TopAcc
  | [], acc => acc
  | w :: rest, (best_move, best_score, alpha) =>
    if can_place_wall g.state w then
      let score := minimax ai d (place_wall (search_copy g) w).2 alpha Score.posInf false
      let best' : Option AIMove × Score :=
        if Score.slt best_score score then (some (AIMove.wall w), score) else (best_move, best_score)
      top_loop_walls ai d g rest (best'.1, best'.2, Score.pymax alpha score)
    else top_loop_walls ai d g rest (best_move, best_score, alpha)

/-- Top-level selection (`_get_minimax_move`, used by `get_best_move` for
every non-easy difficulty): score every legal move, then every filtered
wall candidate, keep the single best (first seen wins ties), and fall back
to the first enumerated move when nothing beat the minus-infinity
sentinel; `none` models the crash on an empty move list. -/
def get_minimax_move (sample : List Wall → List Wall) (ai : QuoridorAI) (g : Game) :
    Option AIMove :=
  let moves := get_valid_moves g.state g.state.current_player
  let walls := if 0 < get_current_player_walls g.state then get_strategic_walls sample ai g
    else []
  let acc1 := top_loop_moves ai (ai.max_depth - 1) g moves (none, Score.negInf, Score.negInf)
  let acc2 := top_loop_walls ai (ai.max_depth - 1) g walls acc1
  match acc2.1 with
  | some mv => some mv
  | none => moves.head?.map AIMove.move

/-- The invariant the search preserves on a classic 9×9 state: positions
on the board, both goal rows reachable, wall budgets within range, and a
terminal flag consistent with the goal rows. -/
def search_inv (s : GameState) : Prop :=
  s.board_size = 9 ∧
  is_valid_position s.board_size s.player1_pos = true ∧
  is_valid_position s.board_size s.player2_pos = true ∧
  has_path_to_goal s.board_size s.walls s.player1_pos .P1 = true ∧
  has_path_to_goal s.board_size s.walls s.player2_pos .P2 = true ∧
  0 ≤ s.player1_walls ∧ s.player1_walls ≤ 10 ∧
  0 ≤ s.player2_walls ∧ s.player2_walls ≤ 10 ∧
  (s.game_over = false → s.player1_pos.1 ≠ 0 ∧ s.player2_pos.1 ≠ 8)

/-- The strict upper bound on a non-terminal minimax value at a given
depth: the heuristic ceiling at the horizon, one ply's terminal value
deeper in. -/
def search_bound : ℕ → ℤ
  | 0 => 860
  | d + 1 => 1000 + d

/-! ### Concrete states used by individual theorems -/

/-- A state in which the straight jump over the adjacent opponent is
blocked by a wall behind the opponent, so the up direction contributes the
two side-step diagonals. -/
def diag_demo_state : GameState :=
  { player1_pos := (4, 4), player2_pos := (3, 4), walls := {⟨2, 4, .horizontal⟩} }

/-- A state in which the edge between the player and the adjacent opponent
is itself severed by a wall, although the cell beyond the opponent is free. -/
def blocked_edge_state : GameState :=
  { player1_pos := (4, 4), player2_pos := (3, 4), walls := {⟨3, 4, .horizontal⟩} }

/-- An already-terminal state in which Player 1, recorded as winner, still
has a one-step winning move (0,5) available but enumerated after the
non-winning moves; Player 1 has no walls left, so the search considers no
wall candidates. -/
def terminal_minimax_game : Game :=
  { state := { player1_pos := (1, 4), player2_pos := (1, 5), player1_walls := 0,
               player2_walls := 8, walls := {⟨0, 3, .horizontal⟩, ⟨1, 5, .vertical⟩},
               current_player := .P1, game_over := true, winner := some .P1 },
    history := [] }

/-- A plain mid-game position one move from a Player 1 win: Player 1 at
(1,4) with row 0 adjacent, Player 2 at (5,4), no walls placed. -/
def minimax_demo_game : Game :=
  { state := { player1_pos := (1, 4), player2_pos := (5, 4) }, history := [] }

/-- A state realizing Scenario C: Player 1 directly below Player 2 with
the cell beyond Player 2 free and unblocked. -/
def jump_demo_state : GameState :=
  { player1_pos := (4, 4), player2_pos := (3, 4) }

/-- A terminal position (Player 1 already on row 0) in which it is Player
2's turn. -/
def terminal_move_game : Game :=
  { state := { player1_pos := (0, 0), player2_pos := (0, 4), current_player := .P2,
               game_over := true, winner := some .P1 },
    history := [] }

/-- A terminal 2×2 position from which a wall can still legally be placed. -/
def terminal_wall_game : Game :=
  { state := { board_size := 2, player1_pos := (1, 0), player2_pos := (0, 1),
               game_over := true, winner := some .P1 },
    history := [] }

/-- The single legal wall of the 2×2 demonstrations. -/
def small_wall : Wall := ⟨0, 0, .vertical⟩

/-- A non-terminal 2×2 position. -/
def small_game : Game :=
  { state := { board_size := 2, player1_pos := (1, 0), player2_pos := (0, 1) },
    history := [] }

/-- The engine with its terminal flag and winner overwritten; the other
fields are untouched. -/
def set_flags (g : Game) (b : Bool) (wn : Option Player) : Game :=
  { g with state := { g.state with game_over := b, winner := wn } }

/-! ### Helper lemmas -/

/-- The success flag of `place_wall` is exactly the `can_place_wall` verdict. -/
lemma place_wall_fst (g : Game) (w : Wall) :
    (place_wall g w).1 = can_place_wall g.state w := by
  unfold place_wall
  split <;> simp_all

/-- The success flag of `move_player` is exactly membership in the valid
moves of the current player. -/
lemma move_player_fst (g : Game) (p : Pos) :
    (move_player g p).1 = true ↔ p ∈ get_valid_moves g.state g.state.current_player := by
  unfold move_player
  split <;> simp_all

/-- Move generation reads neither the terminal flag nor the winner. -/
lemma get_valid_moves_flags (s : GameState) (b : Bool) (wn : Option Player) (player : Player) :
    get_valid_moves { s with game_over := b, winner := wn } player = get_valid_moves s player := by
  obtain ⟨bs, p1, p2, w1, w2, ws, cur, go, win⟩ := s
  rfl

/-- Wall legality reads neither the terminal flag nor the winner. -/
lemma can_place_wall_flags (s : GameState) (b : Bool) (wn : Option Player) (w : Wall) :
    can_place_wall { s with game_over := b, winner := wn } w = can_place_wall s w := by
  obtain ⟨bs, p1, p2, w1, w2, ws, cur, go, win⟩ := s
  rfl

/-- An accepted wall is not already on the board. -/
lemma can_place_wall_not_mem {s : GameState} {w : Wall} (h : can_place_wall s w = true) :
    w ∉ s.walls := by
  intro hm
  unfold can_place_wall at h
  split_ifs at h

/-- Every destination contributed by a direction is on the board. -/
lemma mem_moves_in_dir_valid {s : GameState} {player : Player} {d q : Pos}
    (h : q ∈ moves_in_dir s player d) : is_valid_position s.board_size q = true := by
  simp only [moves_in_dir] at h
  split_ifs at h with h1 h2 h3 h4
  · simp at h
  · simp at h
  · rw [Bool.and_eq_true] at h4
    simp only [List.mem_singleton] at h
    subst h
    exact h4.1
  · rw [List.mem_filter, Bool.and_eq_true] at h
    exact h.2.1
  · simp only [List.mem_singleton] at h
    subst h
    simpa using h1

/-- The decomposition of membership in `directions`. -/
lemma mem_directions_elim {d : Pos} (hd : d ∈ directions) :
    d = ((-1 : ℤ), (0 : ℤ)) ∨ d = ((1 : ℤ), (0 : ℤ)) ∨
      d = ((0 : ℤ), (-1 : ℤ)) ∨ d = ((0 : ℤ), (1 : ℤ)) := by
  simpa [directions] using hd

/-- No direction ever contributes the opponent's occupied cell. -/
lemma mem_moves_in_dir_ne_opp {s : GameState} {player : Player} {d q : Pos}
    (hd : d ∈ directions) (h : q ∈ moves_in_dir s player d) :
    q ≠ pos_of s player.other := by
  have hd' := mem_directions_elim hd
  simp only [moves_in_dir] at h
  split_ifs at h with h1 h2 h3 h4
  · simp at h
  · simp at h
  · simp only [List.mem_singleton] at h
    subst h
    rw [h3]
    intro heq
    rcases hd' with h | h | h | h <;> subst h <;>
      (rw [Prod.ext_iff] at heq; simp only [step] at heq; omega)
  · rw [List.mem_filter] at h
    obtain ⟨hc, -⟩ := h
    rw [h3] at hc
    intro heq
    subst heq
    rcases hd' with h | h | h | h <;> subst h <;>
      simp [side_step_cells, Prod.ext_iff] at hc
  · simp only [List.mem_singleton] at h
    subst h
    exact h3

/-- The side-step candidate list always has exactly two cells. -/
lemma side_step_cells_length (n d : Pos) : (side_step_cells n d).length = 2 := by
  simp only [side_step_cells]
  split_ifs <;> simp

/-- A direction contributes at most two destinations. -/
lemma moves_in_dir_length_le_two (s : GameState) (player : Player) (d : Pos) :
    (moves_in_dir s player d).length ≤ 2 := by
  simp only [moves_in_dir]
  split_ifs
  · simp
  · simp
  · simp
  · exact (List.length_filter_le _ _).trans (le_of_eq (side_step_cells_length _ _))
  · simp

/-- A direction contributes at most one destination unless the straight
jump over the adjacent opponent in that direction is impossible. -/
lemma moves_in_dir_length_le_one (s : GameState) (player : Player) (d : Pos)
    (hjump : step (pos_of s player) d = pos_of s player.other →
      (is_valid_position s.board_size (step (step (pos_of s player) d) d) &&
        !(is_wall_between s.walls (pos_of s player.other)
            (step (step (pos_of s player) d) d))) = true) :
    (moves_in_dir s player d).length ≤ 1 := by
  simp only [moves_in_dir]
  split_ifs with h1 h2 h3 h4
  · simp
  · simp
  · simp
  · exact absurd (hjump h3) h4
  · simp

/-- The opponent's occupied cell is never a valid move. -/
lemma not_opp_mem_get_valid_moves (s : GameState) (player : Player) :
    pos_of s player.other ∉ get_valid_moves s player := by
  intro h
  rw [get_valid_moves, List.mem_flatMap] at h
  obtain ⟨d, hd, hq⟩ := h
  exact mem_moves_in_dir_ne_opp hd hq rfl

/-- Membership in the neighbour list unpacked: a step in one of the four
directions, on board, with the connecting edge unblocked. -/
lemma mem_neighbor_list_iff {bs : ℤ} {walls : Finset Wall} {p q : Pos} :
    q ∈ neighbor_list bs walls p ↔
      ∃ d ∈ directions, q = step p d ∧ is_valid_position bs q = true ∧
        is_wall_between walls p q = false := by
  simp only [neighbor_list, List.mem_filterMap]
  constructor
  · rintro ⟨d, hd, hopt⟩
    split_ifs at hopt with hc
    · rw [Option.some.injEq] at hopt
      subst hopt
      rw [Bool.and_eq_true, Bool.not_eq_true'] at hc
      exact ⟨d, hd, rfl, hc.1, hc.2⟩
  · rintro ⟨d, hd, rfl, hv, hw⟩
    refine ⟨d, hd, ?_⟩
    have hc : (is_valid_position bs (step p d) && !(is_wall_between walls p (step p d))) = true := by
      rw [hv, hw]
      rfl
    rw [if_pos hc]

/-- Cells in the neighbour list pass the bounds check. -/
lemma mem_neighbor_list_valid {bs : ℤ} {walls : Finset Wall} {p q : Pos}
    (h : q ∈ neighbor_list bs walls p) : is_valid_position bs q = true := by
  obtain ⟨d, -, -, hv, -⟩ := mem_neighbor_list_iff.mp h
  exact hv

/-- The visited set only grows under one expansion round. -/
lemma subset_expand (bs : ℤ) (walls : Finset Wall) (S : Finset Pos) :
    S ⊆ expand bs walls S :=
  Finset.subset_union_left

/-- A neighbour of a visited cell is visited after one more round. -/
lemma mem_expand_of_adj {bs : ℤ} {walls : Finset Wall} {S : Finset Pos} {p q : Pos}
    (hp : p ∈ S) (hq : q ∈ neighbor_list bs walls p) : q ∈ expand bs walls S := by
  rw [expand, Finset.mem_union]
  exact Or.inr (Finset.mem_biUnion.mpr ⟨p, hp, List.mem_toFinset.mpr hq⟩)

/-- Soundness of the search: every visited cell is reachable. -/
lemma reaches_of_mem_iterate {bs : ℤ} {walls : Finset Wall} {start : Pos} :
    ∀ n, ∀ c ∈ (expand bs walls)^[n] {start}, reaches bs walls start c := by
  intro n
  induction n with
  | zero =>
    intro c hc
    rw [Function.iterate_zero_apply, Finset.mem_singleton] at hc
    subst hc
    exact Relation.ReflTransGen.refl
  | succ n ih =>
    intro c hc
    rw [Function.iterate_succ_apply', expand, Finset.mem_union] at hc
    rcases hc with h | h
    · exact ih c h
    · obtain ⟨p, hp, hq⟩ := Finset.mem_biUnion.mp h
      exact (ih p hp).tail (List.mem_toFinset.mp hq)

/-- The start is always in the visited set. -/
lemma start_mem_iterate {bs : ℤ} {walls : Finset Wall} {start : Pos} :
    ∀ n, start ∈ (expand bs walls)^[n] {start} := by
  intro n
  induction n with
  | zero => simp
  | succ n ih =>
    rw [Function.iterate_succ_apply']
    exact subset_expand bs walls _ ih

/-- The bounds check is membership in the finite cell set. -/
lemma mem_valid_cells_iff {bs : ℤ} {p : Pos} :
    p ∈ valid_cells bs ↔ is_valid_position bs p = true := by
  simp only [valid_cells, Finset.mem_product, Finset.mem_Icc, is_valid_position,
    decide_eq_true_eq]
  omega

/-- The visited sets live inside the board cells plus the start. -/
lemma iterate_subset_insert_valid {bs : ℤ} {walls : Finset Wall} {start : Pos} :
    ∀ n, (expand bs walls)^[n] {start} ⊆ insert start (valid_cells bs) := by
  intro n
  induction n with
  | zero =>
    rw [Function.iterate_zero_apply]
    exact Finset.singleton_subset_iff.mpr (Finset.mem_insert_self _ _)
  | succ n ih =>
    rw [Function.iterate_succ_apply', expand]
    refine Finset.union_subset ih (Finset.biUnion_subset.mpr fun p _ => ?_)
    intro q hq
    rw [List.mem_toFinset] at hq
    exact Finset.mem_insert_of_mem (mem_valid_cells_iff.mpr (mem_neighbor_list_valid hq))

/-- While no round is a fixpoint, the visited set grows strictly. -/
lemma card_iterate_of_no_fix {bs : ℤ} {walls : Finset Wall} {start : Pos} :
    ∀ n, (∀ k < n, (expand bs walls)^[k] {start} ≠ (expand bs walls)^[k + 1] {start}) →
      n + 1 ≤ ((expand bs walls)^[n] {start}).card := by
  intro n
  induction n with
  | zero => simp
  | succ n ih =>
    intro hno
    have h1 : n + 1 ≤ ((expand bs walls)^[n] {start}).card :=
      ih fun k hk => hno k (Nat.lt_succ_of_lt hk)
    have h2 : (expand bs walls)^[n] {start} ⊂ (expand bs walls)^[n + 1] {start} := by
      refine ⟨?_, fun hsub => hno n (Nat.lt_succ_self n) (Finset.Subset.antisymm ?_ hsub)⟩
      · rw [Function.iterate_succ_apply']
        exact subset_expand bs walls _
      · rw [Function.iterate_succ_apply']
        exact subset_expand bs walls _
    have h3 := Finset.card_lt_card h2
    omega

/-- The number of cells the search can ever visit. -/
lemma card_valid_cells (bs : ℤ) : (valid_cells bs).card = bs.toNat * bs.toNat := by
  rw [valid_cells, Finset.card_product, Int.card_Icc]
  have : bs - 1 + 1 - 0 = bs := by ring
  rw [this]

/-- Some round at or before the fuel bound is a fixpoint. -/
lemma exists_fix_round {bs : ℤ} {walls : Finset Wall} {start : Pos} :
    ∃ k < bfs_fuel bs,
      (expand bs walls)^[k] {start} = (expand bs walls)^[k + 1] {start} := by
  by_contra hno
  push_neg at hno
  have h1 := card_iterate_of_no_fix (bfs_fuel bs) hno
  have h2 := Finset.card_le_card (@iterate_subset_insert_valid bs walls start (bfs_fuel bs))
  have h3 : (insert start (valid_cells bs)).card ≤ (valid_cells bs).card + 1 :=
    Finset.card_insert_le _ _
  have h4 := card_valid_cells bs
  have h5 : bfs_fuel bs = bs.toNat * bs.toNat + 1 := by
    rw [bfs_fuel, pow_two]
  omega

/-- The final visited set is a fixpoint of the expansion. -/
lemma expand_reach_set {bs : ℤ} {walls : Finset Wall} {start : Pos} :
    expand bs walls (reach_set bs walls start) = reach_set bs walls start := by
  obtain ⟨k, hk, hfix⟩ := @exists_fix_round bs walls start
  have hfix' : expand bs walls ((expand bs walls)^[k] {start}) = (expand bs walls)^[k] {start} := by
    have h1 : (expand bs walls)^[k + 1] {start} = expand bs walls ((expand bs walls)^[k] {start}) :=
      Function.iterate_succ_apply' _ _ _
    rw [← h1]
    exact hfix.symm
  have hstable : reach_set bs walls start = (expand bs walls)^[k] {start} := by
    rw [reach_set]
    have hsplit : bfs_fuel bs = (bfs_fuel bs - k) + k := by omega
    rw [hsplit, Function.iterate_add_apply]
    exact Function.iterate_fixed hfix' _
  rw [hstable]
  exact hfix'

/-- Completeness of the search: every reachable cell is visited. -/
lemma mem_reach_set_of_reaches {bs : ℤ} {walls : Finset Wall} {start c : Pos}
    (h : reaches bs walls start c) : c ∈ reach_set bs walls start := by
  induction h with
  | refl => exact start_mem_iterate (bfs_fuel bs)
  | tail _ hadj ih =>
    have := mem_expand_of_adj ih hadj
    rwa [expand_reach_set] at this

/-- `_has_path_to_goal` decides exactly reachability of the goal row. -/
lemma has_path_iff {bs : ℤ} {walls : Finset Wall} {start : Pos} {player : Player} :
    has_path_to_goal bs walls start player = true ↔
      ∃ c, reaches bs walls start c ∧ c.1 = goal_row bs player := by
  rw [has_path_to_goal, decide_eq_true_eq]
  constructor
  · rintro ⟨c, hc, hg⟩
    exact ⟨c, reaches_of_mem_iterate (bfs_fuel bs) c hc, hg⟩
  · rintro ⟨c, hr, hg⟩
    exact ⟨c, mem_reach_set_of_reaches hr, hg⟩

/-- Blocking of one grid edge does not depend on the direction of
traversal. -/
lemma is_wall_between_step_symm (walls : Finset Wall) (p d : Pos) (hd : d ∈ directions) :
    is_wall_between walls (step p d) p = is_wall_between walls p (step p d) := by
  obtain ⟨r, c⟩ := p
  rcases mem_directions_elim hd with h | h | h | h <;> subst h <;>
    simp [is_wall_between, step, sub_eq_add_neg]

/-- Reversal of one adjacency step, available when the source cell is on
the board. -/
lemma neighbor_list_rev {bs : ℤ} {walls : Finset Wall} {p q : Pos}
    (hq : q ∈ neighbor_list bs walls p) (hp : is_valid_position bs p = true) :
    p ∈ neighbor_list bs walls q := by
  obtain ⟨d, hd, rfl, hv, hw⟩ := mem_neighbor_list_iff.mp hq
  refine mem_neighbor_list_iff.mpr ⟨(-d.1, -d.2), ?_, ?_, hp, ?_⟩
  · rcases mem_directions_elim hd with h | h | h | h <;> subst h <;> norm_num [directions]
  · rw [step, step]
    simp
  · rw [is_wall_between_step_symm walls p d hd]
    exact hw

/-- Reversal of reachability from an on-board start. -/
lemma reaches_rev {bs : ℤ} {walls : Finset Wall} {p q : Pos}
    (h : reaches bs walls p q) (hp : is_valid_position bs p = true) :
    reaches bs walls q p := by
  revert hp
  induction h using Relation.ReflTransGen.head_induction_on with
  | refl => exact fun _ => Relation.ReflTransGen.refl
  | head hac _ ih =>
    intro hpa
    have hvc := mem_neighbor_list_valid hac
    exact (ih hvc).tail (neighbor_list_rev hac hpa)

/-- The first step of a direction's exploration is one adjacency step. -/
lemma first_step_mem {s : GameState} {player : Player} {d : Pos} (hd : d ∈ directions)
    (h1 : ¬((!is_valid_position s.board_size (step (pos_of s player) d)) = true))
    (h2 : ¬(is_wall_between s.walls (pos_of s player) (step (pos_of s player) d) = true)) :
    step (pos_of s player) d ∈ neighbor_list s.board_size s.walls (pos_of s player) :=
  mem_neighbor_list_iff.mpr ⟨d, hd, rfl, by simpa using h1, by simpa using h2⟩

/-- Every valid move is graph-reachable from the mover's position: a
direct step, a jump through the opponent's cell, or a side-step diagonal
through the opponent's cell. -/
lemma reaches_of_valid_move {s : GameState} {player : Player} {q : Pos}
    (hq : q ∈ get_valid_moves s player) :
    reaches s.board_size s.walls (pos_of s player) q := by
  rw [get_valid_moves, List.mem_flatMap] at hq
  obtain ⟨d, hd, hq⟩ := hq
  simp only [moves_in_dir] at hq
  split_ifs at hq with h1 h2 h3 h4
  · simp at hq
  · simp at hq
  · simp only [List.mem_singleton] at hq
    subst hq
    rw [Bool.and_eq_true, Bool.not_eq_true'] at h4
    rw [h3] at h4 ⊢
    have hstep1 : pos_of s player.other ∈
        neighbor_list s.board_size s.walls (pos_of s player) := by
      have h := first_step_mem hd h1 h2
      rwa [h3] at h
    have hstep2 : step (pos_of s player.other) d ∈
        neighbor_list s.board_size s.walls (pos_of s player.other) :=
      mem_neighbor_list_iff.mpr ⟨d, hd, rfl, h4.1, h4.2⟩
    exact (Relation.ReflTransGen.single hstep1).tail hstep2
  · rw [List.mem_filter, Bool.and_eq_true, Bool.not_eq_true'] at hq
    obtain ⟨hcell, hvq, hwq⟩ := hq
    rw [h3] at hcell
    have hq' : q ∈ neighbor_list s.board_size s.walls (pos_of s player.other) := by
      simp only [side_step_cells] at hcell
      split_ifs at hcell with hd0
      · simp only [List.mem_map, List.mem_cons, List.mem_singleton] at hcell
        obtain ⟨ddr, hddr, hqe⟩ := hcell
        refine mem_neighbor_list_iff.mpr ⟨(ddr, 0), ?_, ?_, hvq, hwq⟩
        · rcases hddr with h | h | h
          · subst h
            norm_num [directions]
          · subst h
            norm_num [directions]
          · simp at h
        · rw [← hqe]
          simp [step]
      · simp only [List.mem_map, List.mem_cons, List.mem_singleton] at hcell
        obtain ⟨ddc, hddc, hqe⟩ := hcell
        refine mem_neighbor_list_iff.mpr ⟨(0, ddc), ?_, ?_, hvq, hwq⟩
        · rcases hddc with h | h | h
          · subst h
            norm_num [directions]
          · subst h
            norm_num [directions]
          · simp at h
        · rw [← hqe]
          simp [step]
    have hstep1 : pos_of s player.other ∈
        neighbor_list s.board_size s.walls (pos_of s player) := by
      have h := first_step_mem hd h1 h2
      rwa [h3] at h
    exact (Relation.ReflTransGen.single hstep1).tail hq'
  · simp only [List.mem_singleton] at hq
    subst hq
    exact Relation.ReflTransGen.single (first_step_mem hd h1 h2)

/-- Valid moves are on the board. -/
lemma mem_get_valid_moves_valid {s : GameState} {player : Player} {q : Pos}
    (hq : q ∈ get_valid_moves s player) : is_valid_position s.board_size q = true := by
  rw [get_valid_moves, List.mem_flatMap] at hq
  obtain ⟨d, _, hq⟩ := hq
  exact mem_moves_in_dir_valid hq

/-- Moving to a valid move preserves the existence of a path to any goal
row: the destination lies in the same connected component. -/
lemma has_path_transfer {s : GameState} {player : Player} {q : Pos} {pl : Player}
    (hq : q ∈ get_valid_moves s player)
    (hvp : is_valid_position s.board_size (pos_of s player) = true)
    (hpath : has_path_to_goal s.board_size s.walls (pos_of s player) pl = true) :
    has_path_to_goal s.board_size s.walls q pl = true := by
  obtain ⟨c, hr, hg⟩ := has_path_iff.mp hpath
  exact has_path_iff.mpr ⟨c, (reaches_rev (reaches_of_valid_move hq) hvp).trans hr, hg⟩

lemma board_eq_refl (s : GameState) : board_eq s s := ⟨rfl, rfl, rfl, rfl⟩

lemma board_eq_trans {s₁ s₂ s₃ : GameState} (h1 : board_eq s₁ s₂) (h2 : board_eq s₂ s₃) :
    board_eq s₁ s₃ :=
  ⟨h1.1.trans h2.1, h1.2.1.trans h2.2.1, h1.2.2.1.trans h2.2.2.1, h1.2.2.2.trans h2.2.2.2⟩

/-- Switching the turn touches none of the board fields. -/
lemma board_eq_switch_player (s : GameState) : board_eq (switch_player s) s :=
  ⟨rfl, rfl, rfl, rfl⟩

/-- Win detection touches none of the board fields. -/
lemma board_eq_check_win (s : GameState) : board_eq (check_win s) s := by
  rw [check_win]
  split_ifs <;> exact ⟨rfl, rfl, rfl, rfl⟩

/-- The connectivity invariant reads only the board fields. -/
lemma conn_ok_congr {s₁ s₂ : GameState} (h : board_eq s₁ s₂) : conn_ok s₁ ↔ conn_ok s₂ := by
  obtain ⟨h1, h2, h3, h4⟩ := h
  rw [conn_ok, conn_ok, h1, h2, h3, h4]

/-- Reversing the same record preserves agreement on the board fields. -/
lemma undo_apply_board_eq {s₁ s₂ : GameState} (h : board_eq s₁ s₂) (entry : MoveRecord) :
    board_eq (undo_apply entry s₁) (undo_apply entry s₂) := by
  obtain ⟨h1, h2, h3, h4⟩ := h
  cases entry with
  | move player old_pos new_pos =>
    cases player <;> exact ⟨h1, by simp [undo_apply, switch_player, h2, h3], by
      simp [undo_apply, switch_player, h2, h3], h4⟩
  | wall player w =>
    cases player <;> exact ⟨h1, h2, h3, by simp [undo_apply, switch_player, h4]⟩

/-- The undo-stability predicate reads only the board fields at every
stage. -/
lemma all_undos_congr (hist : List MoveRecord) :
    ∀ {s₁ s₂ : GameState}, board_eq s₁ s₂ → (all_undos hist s₁ ↔ all_undos hist s₂) := by
  induction hist with
  | nil =>
    intro s₁ s₂ hb
    exact conn_ok_congr hb
  | cons entry rest ih =>
    intro s₁ s₂ hb
    exact and_congr (conn_ok_congr hb) (ih (undo_apply_board_eq hb entry))

/-- The head of the undo-stability predicate. -/
lemma all_undos_head {hist : List MoveRecord} {s : GameState} (h : all_undos hist s) :
    conn_ok s := by
  cases hist with
  | nil => exact h
  | cons entry rest => exact h.1

/-- An explicit adjacency step packaged for building concrete paths. -/
lemma reaches_step (bs : ℤ) (walls : Finset Wall) (a b c : Pos)
    (h1 : b ∈ neighbor_list bs walls a) (h2 : reaches bs walls b c) : reaches bs walls a c :=
  Relation.ReflTransGen.head h1 h2

/-- The fresh state satisfies the connectivity invariant: both starting
columns are clear of walls. -/
lemma conn_ok_initial : conn_ok initial_game.state := by
  refine ⟨by decide, by decide, ?_, ?_⟩
  · refine has_path_iff.mpr ⟨(0, 4), ?_, rfl⟩
    exact reaches_step 9 ∅ _ (7, 4) _ (by decide) (reaches_step 9 ∅ _ (6, 4) _ (by decide)
      (reaches_step 9 ∅ _ (5, 4) _ (by decide) (reaches_step 9 ∅ _ (4, 4) _ (by decide)
      (reaches_step 9 ∅ _ (3, 4) _ (by decide) (reaches_step 9 ∅ _ (2, 4) _ (by decide)
      (reaches_step 9 ∅ _ (1, 4) _ (by decide) (reaches_step 9 ∅ _ (0, 4) _ (by decide)
      Relation.ReflTransGen.refl)))))))
  · refine has_path_iff.mpr ⟨(8, 4), ?_, rfl⟩
    exact reaches_step 9 ∅ _ (1, 4) _ (by decide) (reaches_step 9 ∅ _ (2, 4) _ (by decide)
      (reaches_step 9 ∅ _ (3, 4) _ (by decide) (reaches_step 9 ∅ _ (4, 4) _ (by decide)
      (reaches_step 9 ∅ _ (5, 4) _ (by decide) (reaches_step 9 ∅ _ (6, 4) _ (by decide)
      (reaches_step 9 ∅ _ (7, 4) _ (by decide) (reaches_step 9 ∅ _ (8, 4) _ (by decide)
      Relation.ReflTransGen.refl)))))))

/-- Characterization of `walls_overlap`: two walls conflict exactly when
they are collinear with the same orientation and anchors at distance at
most one, or perpendicular with the same anchor. -/
lemma walls_overlap_iff (a b : Wall) :
    walls_overlap a b = true ↔
      ((a.orientation = b.orientation ∧
        ((a.orientation = .horizontal ∧ a.row = b.row ∧ |a.col - b.col| ≤ 1) ∨
         (a.orientation = .vertical ∧ a.col = b.col ∧ |a.row - b.row| ≤ 1))) ∨
       (a.orientation ≠ b.orientation ∧ a.row = b.row ∧ a.col = b.col)) := by
  obtain ⟨ar, ac, ao⟩ := a
  obtain ⟨br, bc, bo⟩ := b
  cases ao <;> cases bo <;>
    simp only [walls_overlap, Wall.mk.injEq] <;>
    split_ifs <;>
    simp_all [abs_le]

/-- Characterization of `can_place_wall` as a plain conjunction, with the
overlap test kept as `walls_overlap`. -/
lemma can_place_wall_iff' (s : GameState) (w : Wall) :
    can_place_wall s w = true ↔
      (0 < get_current_player_walls s ∧
       (0 ≤ w.row ∧ w.row < s.board_size - 1 ∧ 0 ≤ w.col ∧ w.col < s.board_size - 1) ∧
       w ∉ s.walls ∧
       (∀ w' ∈ s.walls, ¬ walls_overlap w w' = true) ∧
       has_path_to_goal s.board_size (insert w s.walls) s.player1_pos .P1 = true ∧
       has_path_to_goal s.board_size (insert w s.walls) s.player2_pos .P2 = true) := by
  unfold can_place_wall
  split_ifs with h1 h2 h3 h4
  · refine iff_of_false (by simp) ?_
    rintro ⟨hw, _, _, _, _, _⟩
    omega
  · simp only [Bool.not_eq_true', decide_eq_false_iff_not] at h2
    refine iff_of_false (by simp) ?_
    rintro ⟨_, hb, _, _, _, _⟩
    exact h2 hb
  · refine iff_of_false (by simp) ?_
    rintro ⟨_, _, hm, _, _, _⟩
    exact hm h3
  · simp only [decide_eq_true_eq] at h4
    refine iff_of_false (by simp) ?_
    rintro ⟨_, _, _, hov, _, _⟩
    obtain ⟨w', hw', hover⟩ := h4
    exact (hov w' hw') hover
  · simp only [decide_eq_true_eq] at h4
    push_neg at h4
    simp only [Bool.not_eq_true', decide_eq_false_iff_not, not_not] at h2
    rw [Bool.and_eq_true]
    constructor
    · rintro ⟨hp1, hp2⟩
      exact ⟨by omega, h2, h3, fun w' hw' hov => h4 w' hw' hov, hp1, hp2⟩
    · rintro ⟨_, _, _, _, hp1, hp2⟩
      exact ⟨hp1, hp2⟩

lemma Score.pymax_le {a b c : Score} (ha : Score.sle a c = true) (hb : Score.sle b c = true) :
    Score.sle (Score.pymax a b) c = true := by
  unfold Score.pymax
  split_ifs <;> assumption

lemma Score.pymin_le {a b : Score} {B : ℤ} (hb : Score.sle b (.fin B) = true)
    (ha : Score.sle a (.fin B) = true ∨ a = Score.posInf) :
    Score.sle (Score.pymin a b) (.fin B) = true := by
  rcases ha with ha | rfl
  · unfold Score.pymin
    split_ifs <;> assumption
  · unfold Score.pymin
    split_ifs with h
    · exact hb
    · cases b <;> simp_all [Score.slt, Score.sle]

lemma Score.sle_fin_mono {v : Score} {X Y : ℤ} (h : Score.sle v (.fin X) = true) (hxy : X ≤ Y) :
    Score.sle v (.fin Y) = true := by
  cases v <;> simp_all [Score.sle] <;> omega

lemma Score.slt_of_sle_lt {v : Score} {X Y : ℤ} (h : Score.sle v (.fin X) = true) (hxy : X < Y) :
    Score.slt v (.fin Y) = true := by
  cases v <;> simp_all [Score.sle, Score.slt] <;> omega

lemma Score.not_slt_of_sle {v : Score} {B : ℤ} (h : Score.sle v (.fin B) = true) :
    Score.slt (.fin B) v = false := by
  cases v <;> simp_all [Score.sle, Score.slt] <;> omega

/-- If every child evaluation is bounded, the maximizing loop stays
bounded. -/
lemma alpha_loop_le (f : Game → Score → Score → Score) (g : Game) (B : ℤ)
    (hf : ∀ (m : Pos) (a b : Score),
      Score.sle (f (move_player (search_copy g) m).2 a b) (.fin B) = true) :
    ∀ (l : List Pos) (acc α β : Score), Score.sle acc (.fin B) = true →
      Score.sle (alpha_loop f g l acc α β) (.fin B) = true := by
  intro l
  induction l with
  | nil =>
    intro acc α β hacc
    exact hacc
  | cons m rest ih =>
    intro acc α β hacc
    simp only [alpha_loop]
    split_ifs
    · exact Score.pymax_le hacc (hf m α β)
    · exact ih _ _ _ (Score.pymax_le hacc (hf m α β))

/-- If every child evaluation is bounded and the move list is nonempty,
the minimizing loop (seeded with plus infinity) stays bounded. -/
lemma beta_loop_le (f : Game → Score → Score → Score) (g : Game) (B : ℤ)
    (hf : ∀ (m : Pos) (a b : Score),
      Score.sle (f (move_player (search_copy g) m).2 a b) (.fin B) = true) :
    ∀ (l : List Pos) (acc α β : Score),
      (Score.sle acc (.fin B) = true ∨ (acc = Score.posInf ∧ l ≠ [])) →
      Score.sle (beta_loop f g l acc α β) (.fin B) = true := by
  intro l
  induction l with
  | nil =>
    intro acc α β hacc
    rcases hacc with hacc | ⟨-, hne⟩
    · exact hacc
    · exact absurd rfl hne
  | cons m rest ih =>
    intro acc α β hacc
    have hmin : Score.sle (Score.pymin acc (f (move_player (search_copy g) m).2 α β))
        (.fin B) = true := by
      refine Score.pymin_le (hf m α β) ?_
      rcases hacc with hacc | ⟨rfl, -⟩
      · exact Or.inl hacc
      · exact Or.inr rfl
    simp only [beta_loop]
    split_ifs
    · exact hmin
    · exact ih _ _ _ (Or.inl hmin)

/-- Terminal minimax value when the searched-for player has won. -/
lemma minimax_win {ai : QuoridorAI} {d : ℕ} {g : Game} {α β : Score} {mx : Bool}
    (hgo : g.state.game_over = true) (hw : g.state.winner = some ai.player) :
    minimax ai d g α β mx = .fin (1000 + d) := by
  cases d <;> simp [minimax, hgo, hw]

/-- Every terminal minimax value is bounded by the win value. -/
lemma minimax_terminal_le {ai : QuoridorAI} {d : ℕ} {g : Game} {α β : Score} {mx : Bool}
    (hgo : g.state.game_over = true) :
    Score.sle (minimax ai d g α β mx) (.fin (1000 + d)) = true := by
  rcases hw : g.state.winner with - | p
  · cases d <;> simp [minimax, hgo, hw, Score.sle] <;> omega
  · by_cases hp : p = ai.player
    · subst hp
      cases d <;> simp [minimax, hgo, hw, Score.sle]
    · cases d <;> simp [minimax, hgo, hw, hp, Score.sle] <;> omega

lemma check_win_board_size (s : GameState) : (check_win s).board_size = s.board_size := by
  rw [check_win]
  split_ifs <;> rfl

lemma check_win_player1_pos (s : GameState) : (check_win s).player1_pos = s.player1_pos := by
  rw [check_win]
  split_ifs <;> rfl

lemma check_win_player2_pos (s : GameState) : (check_win s).player2_pos = s.player2_pos := by
  rw [check_win]
  split_ifs <;> rfl

lemma check_win_walls (s : GameState) : (check_win s).walls = s.walls := by
  rw [check_win]
  split_ifs <;> rfl

lemma check_win_player1_walls (s : GameState) : (check_win s).player1_walls = s.player1_walls := by
  rw [check_win]
  split_ifs <;> rfl

lemma check_win_player2_walls (s : GameState) : (check_win s).player2_walls = s.player2_walls := by
  rw [check_win]
  split_ifs <;> rfl

/-- The bounds check decoded. -/
lemma is_valid_position_iff {bs : ℤ} {p : Pos} :
    is_valid_position bs p = true ↔ 0 ≤ p.1 ∧ p.1 < bs ∧ 0 ≤ p.2 ∧ p.2 < bs := by
  rw [is_valid_position, decide_eq_true_eq]

/-- When the goal row is reachable, the shortest-path search returns a
finite length bounded by the fuel. -/
lemma shortest_of_has_path {bs : ℤ} {walls : Finset Wall} {start : Pos} {player : Player}
    (h : has_path_to_goal bs walls start player = true) :
    ∃ n : ℕ, get_shortest_path_length bs walls start player = some n ∧ n ≤ bfs_fuel bs := by
  cases hf : (List.range (bfs_fuel bs + 1)).find? (fun k =>
      decide (∃ c ∈ (expand bs walls)^[k] {start}, c.1 = goal_row bs player)) with
  | none =>
    rw [List.find?_eq_none] at hf
    have hfuel : decide (∃ c ∈ (expand bs walls)^[bfs_fuel bs] {start},
        c.1 = goal_row bs player) = true := h
    exact absurd hfuel (by simpa using hf (bfs_fuel bs) (List.mem_range.mpr (by omega)))
  | some n =>
    refine ⟨n, hf, ?_⟩
    have hmem := List.mem_of_find?_eq_some hf
    have := List.mem_range.mp hmem
    omega

/-- On an invariant-satisfying 9×9 state, the heuristic evaluation is a
finite score of at most 860. -/
lemma evaluate_bound {ai : QuoridorAI} {g : Game} (hinv : search_inv g.state) :
    ∃ z : ℤ, evaluate ai g = .fin z ∧ z ≤ 860 := by
  obtain ⟨hbs, hv1, hv2, hp1, hp2, hw1a, hw1b, hw2a, hw2b, -⟩ := hinv
  have hfuel : bfs_fuel 9 = 82 := by decide
  have hctr : Int.ediv 9 2 = 4 := by decide
  have hr1 := is_valid_position_iff.mp hv1
  have hr2 := is_valid_position_iff.mp hv2
  rw [hbs] at hr1 hr2
  have habs1 : 0 ≤ |g.state.player1_pos.2 - 4| := abs_nonneg _
  have habs2 : 0 ≤ |g.state.player2_pos.2 - 4| := abs_nonneg _
  cases hai : ai.player with
  | P1 =>
    obtain ⟨n1, hn1, hb1⟩ := shortest_of_has_path hp1
    obtain ⟨n2, hn2, hb2⟩ := shortest_of_has_path hp2
    rw [hbs] at hn1 hn2 hb1 hb2
    rw [hfuel] at hb1 hb2
    simp only [evaluate, hai, pos_of, Player.other, hbs, hn1, hn2, hctr, path_len_score,
      Score.sub, Score.scale, Score.add]
    refine ⟨_, rfl, ?_⟩
    omega
  | P2 =>
    obtain ⟨n1, hn1, hb1⟩ := shortest_of_has_path hp2
    obtain ⟨n2, hn2, hb2⟩ := shortest_of_has_path hp1
    rw [hbs] at hn1 hn2 hb1 hb2
    rw [hfuel] at hb1 hb2
    simp only [evaluate, hai, pos_of, Player.other, hbs, hn1, hn2, hctr, path_len_score,
      Score.sub, Score.scale, Score.add]
    refine ⟨_, rfl, ?_⟩
    omega

/-- Applying a valid move to a search copy preserves the search
invariant. -/
lemma search_inv_child {g : Game} {m : Pos} (hinv : search_inv g.state)
    (hgo : g.state.game_over = false)
    (hm : m ∈ get_valid_moves g.state g.state.current_player) :
    search_inv (move_player (search_copy g) m).2.state := by
  obtain ⟨hbs, hv1, hv2, hp1, hp2, hw1a, hw1b, hw2a, hw2b, hflag⟩ := hinv
  obtain ⟨hrow1, hrow2⟩ := hflag hgo
  cases hcur : g.state.current_player with
  | P1 =>
    rw [hcur] at hm
    have he : move_player (search_copy g) m = (true,
        ⟨switch_player (check_win (moved_state g.state .P1 m)),
         [MoveRecord.move .P1 (pos_of g.state .P1) m]⟩) := by
      simp only [move_player, search_copy]
      rw [hcur, if_pos hm]
    rw [he]
    simp only [search_inv, switch_player, check_win_board_size, check_win_player1_pos,
      check_win_player2_pos, check_win_walls, check_win_player1_walls, check_win_player2_walls,
      moved_state]
    refine ⟨hbs, mem_get_valid_moves_valid hm, hv2, has_path_transfer hm hv1 hp1, hp2,
      hw1a, hw1b, hw2a, hw2b, ?_⟩
    intro hgo2
    rw [check_win] at hgo2
    split_ifs at hgo2 with h1 h2
    simp [moved_state] at h1 h2
    rw [hbs] at h2
    exact ⟨h1, by omega⟩
  | P2 =>
    rw [hcur] at hm
    have he : move_player (search_copy g) m = (true,
        ⟨switch_player (check_win (moved_state g.state .P2 m)),
         [MoveRecord.move .P2 (pos_of g.state .P2) m]⟩) := by
      simp only [move_player, search_copy]
      rw [hcur, if_pos hm]
    rw [he]
    simp only [search_inv, switch_player, check_win_board_size, check_win_player1_pos,
      check_win_player2_pos, check_win_walls, check_win_player1_walls, check_win_player2_walls,
      moved_state]
    refine ⟨hbs, hv1, mem_get_valid_moves_valid hm, hp1, has_path_transfer hm hv2 hp2,
      hw1a, hw1b, hw2a, hw2b, ?_⟩
    intro hgo2
    rw [check_win] at hgo2
    split_ifs at hgo2 with h1 h2
    simp [moved_state] at h1 h2
    rw [hbs] at h2
    exact ⟨h1, by omega⟩

/-- Placing a legal wall on a search copy preserves the search invariant
and cannot end the game. -/
lemma search_inv_wall_child {g : Game} {w : Wall} (hinv : search_inv g.state)
    (hgo : g.state.game_over = false) (hc : can_place_wall g.state w = true) :
    search_inv (place_wall (search_copy g) w).2.state ∧
      (place_wall (search_copy g) w).2.state.game_over = false := by
  obtain ⟨hbs, hv1, hv2, hp1, hp2, hw1a, hw1b, hw2a, hw2b, hflag⟩ := hinv
  obtain ⟨hrow1, hrow2⟩ := hflag hgo
  obtain ⟨hcnt, -, -, -, hq1, hq2⟩ := (can_place_wall_iff' g.state w).mp hc
  have he : place_wall (search_copy g) w = (true,
      ⟨switch_player (wall_placed_state g.state g.state.current_player w),
       [MoveRecord.wall g.state.current_player w]⟩) := by
    simp only [place_wall, search_copy]
    rw [if_pos hc]
  rw [he]
  cases hcur : g.state.current_player with
  | P1 =>
    simp only [get_current_player_walls, hcur] at hcnt
    constructor
    · simp only [search_inv, switch_player, wall_placed_state]
      exact ⟨hbs, hv1, hv2, hq1, hq2, by omega, by omega, hw2a, hw2b,
        fun _ => ⟨hrow1, hrow2⟩⟩
    · exact hgo
  | P2 =>
    simp only [get_current_player_walls, hcur] at hcnt
    constructor
    · simp only [search_inv, switch_player, wall_placed_state]
      exact ⟨hbs, hv1, hv2, hq1, hq2, hw1a, hw1b, by omega, by omega,
        fun _ => ⟨hrow1, hrow2⟩⟩
    · exact hgo

/-- An unblocked on-board neighbour that is not the opponent's cell is a
valid move. -/
lemma mem_gvm_of_neighbor_ne_opp {s : GameState} {player : Player} {x : Pos}
    (hx : x ∈ neighbor_list s.board_size s.walls (pos_of s player))
    (hne : x ≠ pos_of s player.other) :
    x ∈ get_valid_moves s player := by
  obtain ⟨d, hd, rfl, hv, hw⟩ := mem_neighbor_list_iff.mp hx
  rw [get_valid_moves, List.mem_flatMap]
  refine ⟨d, hd, ?_⟩
  simp only [moves_in_dir]
  rw [if_neg (by simp [hv]), if_neg (by simp [hw]), if_neg hne]
  exact List.mem_singleton.mpr rfl

/-- A player standing off its goal row with a path to it, whose opponent
also has a path to the opposite goal row, always has at least one valid
move: were the move list empty, the mover's connected component would be
just its own cell and the opponent's, pinning both goal rows onto two
adjacent cells. -/
lemma gvm_nonempty_core {s : GameState} {player : Player}
    (hvp : is_valid_position s.board_size (pos_of s player) = true)
    (hpp : has_path_to_goal s.board_size s.walls (pos_of s player) player = true)
    (hpo : has_path_to_goal s.board_size s.walls (pos_of s player.other) player.other = true)
    (hrow : (pos_of s player).1 ≠ goal_row s.board_size player)
    (hgap : 2 ≤ |goal_row s.board_size player - goal_row s.board_size player.other|) :
    get_valid_moves s player ≠ [] := by
  intro hempty
  have hnbP : ∀ x ∈ neighbor_list s.board_size s.walls (pos_of s player),
      x = pos_of s player.other := by
    intro x hx
    by_contra hne
    have hmem := mem_gvm_of_neighbor_ne_opp hx hne
    rw [hempty] at hmem
    exact absurd hmem (List.not_mem_nil x)
  obtain ⟨c, hreach, hcgoal⟩ := has_path_iff.mp hpp
  have hcP : c ≠ pos_of s player := fun heq => hrow (heq ▸ hcgoal)
  rcases Relation.ReflTransGen.cases_head hreach with heq | ⟨n, hn, hnc⟩
  · exact hcP heq.symm
  have hnO := hnbP n hn
  subst hnO
  obtain ⟨d, hd, hOd, hvO, hwPO⟩ := mem_neighbor_list_iff.mp hn
  rw [get_valid_moves] at hempty
  have hmd : moves_in_dir s player d = [] :=
    List.flatMap_eq_nil_iff.mp hempty d hd
  simp only [moves_in_dir] at hmd
  rw [← hOd] at hmd
  rw [if_neg (by simp [hvO]), if_neg (by simp [hwPO]), if_pos rfl] at hmd
  have hjump : (is_valid_position s.board_size (step (pos_of s player.other) d) &&
      !(is_wall_between s.walls (pos_of s player.other)
        (step (pos_of s player.other) d))) = false := by
    by_contra hj
    rw [Bool.not_eq_false] at hj
    rw [if_pos hj] at hmd
    simp at hmd
  rw [if_neg (by simp [hjump])] at hmd
  have hnbO : ∀ y ∈ neighbor_list s.board_size s.walls (pos_of s player.other),
      y = pos_of s player := by
    intro y hy
    obtain ⟨d', hd', hyd, hvy, hwy⟩ := mem_neighbor_list_iff.mp hy
    by_cases hdd : d' = d
    · subst hdd
      rw [← hyd] at hjump
      rw [hvy, hwy] at hjump
      simp at hjump
    by_cases hneg : d' = (-d.1, -d.2)
    · subst hneg
      subst hyd
      rw [hOd]
      rcases mem_directions_elim hd with h | h | h | h <;> subst h <;>
        (rw [Prod.ext_iff]
         constructor <;> simp [step])
    · exfalso
      refine absurd hmd (List.ne_nil_of_mem (a := y) (List.mem_filter.mpr ⟨?_, ?_⟩))
      · subst hyd
        rcases mem_directions_elim hd with h | h | h | h <;> subst h <;>
          rcases mem_directions_elim hd' with h' | h' | h' | h' <;> subst h' <;>
            first
              | exact absurd rfl hdd
              | exact absurd rfl hneg
              | (simp only [side_step_cells, step]
                 norm_num [Prod.ext_iff])
      · rw [hvy, hwy]
        rfl
  have hclosO : ∀ x, reaches s.board_size s.walls (pos_of s player.other) x →
      x = pos_of s player ∨ x = pos_of s player.other := by
    intro x hx
    induction hx with
    | refl => exact Or.inr rfl
    | tail _ hadj ihb =>
      rcases ihb with hb | hb
      · rw [hb] at hadj
        exact Or.inr (hnbP _ hadj)
      · rw [hb] at hadj
        exact Or.inl (hnbO _ hadj)
  have hOgoal : (pos_of s player.other).1 = goal_row s.board_size player := by
    rcases hclosO c hnc with hc | hc
    · exact absurd hc hcP
    · rw [← hc]
      exact hcgoal
  obtain ⟨c', hreach', hc'goal⟩ := has_path_iff.mp hpo
  have hPgoal : (pos_of s player).1 = goal_row s.board_size player.other := by
    rcases hclosO c' hreach' with hc | hc
    · rw [← hc]
      exact hc'goal
    · exfalso
      rw [hc] at hc'goal
      rw [hc'goal] at hOgoal
      rw [hOgoal] at hgap
      simp at hgap
  have hstep : (pos_of s player.other).1 = (pos_of s player).1 + d.1 := by
    rw [hOd]
    rfl
  rcases le_abs.mp hgap with hg | hg <;>
    rcases mem_directions_elim hd with h | h | h | h <;> subst h <;>
      rw [hOgoal, hPgoal] at hstep <;> simp at hstep <;> omega

/-- Under the search invariant, a non-terminal state always offers the
current player at least one valid move. -/
lemma gvm_nonempty {s : GameState} (hinv : search_inv s) (hgo : s.game_over = false) :
    get_valid_moves s s.current_player ≠ [] := by
  obtain ⟨hbs, hv1, hv2, hp1, hp2, -, -, -, -, hflag⟩ := hinv
  obtain ⟨hrow1, hrow2⟩ := hflag hgo
  cases hcur : s.current_player with
  | P1 =>
    refine @gvm_nonempty_core s .P1 hv1 hp1 hp2 ?_ ?_
    · exact hrow1
    · rw [hbs]
      simp [goal_row, Player.other]
  | P2 =>
    refine @gvm_nonempty_core s .P2 hv2 hp2 hp1 ?_ ?_
    · simp only [goal_row, pos_of, hbs]
      omega
    · rw [hbs]
      simp [goal_row, Player.other]

/-- The non-terminal bound at each depth stays below the terminal win
value of the next ply. -/
lemma search_bound_le (d : ℕ) : search_bound d ≤ 1000 + d := by
  cases d <;> simp [search_bound] <;> omega

/-- On an invariant-satisfying non-terminal state, the minimax value never
reaches the terminal win value of its own depth: it is at most the
heuristic ceiling at the horizon and at most one ply's win value deeper
in. -/
lemma minimax_bound (ai : QuoridorAI) :
    ∀ (d : ℕ) (g : Game) (α β : Score) (mx : Bool), search_inv g.state →
      g.state.game_over = false →
      Score.sle (minimax ai d g α β mx) (.fin (search_bound d)) = true := by
  intro d
  induction d with
  | zero =>
    intro g α β mx hinv hgo
    obtain ⟨z, hz, hle⟩ := @evaluate_bound ai g hinv
    rw [show minimax ai 0 g α β mx = evaluate ai g by simp [minimax, hgo], hz]
    simp [Score.sle, search_bound]
    omega
  | succ d ih =>
    intro g α β mx hinv hgo
    have hchild : ∀ (m : Pos) (a b : Score) (mx' : Bool),
        Score.sle (minimax ai d (move_player (search_copy g) m).2 a b mx')
          (.fin (1000 + (d : ℤ))) = true := by
      intro m a b mx'
      by_cases hm : m ∈ get_valid_moves g.state g.state.current_player
      · have hcinv := search_inv_child hinv hgo hm
        by_cases hcg : (move_player (search_copy g) m).2.state.game_over = true
        · exact minimax_terminal_le hcg
        · have hb := ih (move_player (search_copy g) m).2 a b mx' hcinv
            (by simpa using hcg)
          exact Score.sle_fin_mono hb (by have := search_bound_le d; omega)
      · have he : (move_player (search_copy g) m).2 = search_copy g := by
          simp only [move_player, search_copy]
          rw [if_neg hm]
        rw [he]
        have hinv' : search_inv (search_copy g).state := hinv
        have hgo' : (search_copy g).state.game_over = false := hgo
        exact Score.sle_fin_mono (ih (search_copy g) a b mx' hinv' hgo')
          (by have := search_bound_le d; omega)
    simp only [search_bound]
    cases mx with
    | true =>
      have hred : minimax ai (d + 1) g α β true =
          alpha_loop (fun c a b => minimax ai d c a b false) g
            (get_valid_moves g.state g.state.current_player) Score.negInf α β := by
        simp [minimax, hgo]
      rw [hred]
      exact alpha_loop_le _ g (1000 + d) (fun m a b => hchild m a b false) _
        Score.negInf α β rfl
    | false =>
      have hred : minimax ai (d + 1) g α β false =
          beta_loop (fun c a b => minimax ai d c a b true) g
            (get_valid_moves g.state g.state.current_player) Score.posInf α β := by
        simp [minimax, hgo]
      rw [hred]
      exact beta_loop_le _ g (1000 + d) (fun m a b => hchild m a b true) _
        Score.posInf α β (Or.inr ⟨rfl, gvm_nonempty hinv hgo⟩)

/-- The non-terminal bound at each depth is strictly below the terminal
win value of the next ply. -/
lemma search_bound_lt (d : ℕ) : search_bound d < 1000 + d := by
  cases d <;> simp [search_bound] <;> omega

/-- Moving the current player onto its goal row makes the child state
terminal with Player 1 recorded as the winner. -/
lemma move_child_win {g : Game} {m : Pos} (hcur : g.state.current_player = .P1)
    (hm : m ∈ get_valid_moves g.state .P1) (hr : m.1 = 0) :
    (move_player (search_copy g) m).2.state.game_over = true ∧
      (move_player (search_copy g) m).2.state.winner = some .P1 := by
  have hmem : m ∈ get_valid_moves (search_copy g).state (search_copy g).state.current_player := by
    show m ∈ get_valid_moves g.state g.state.current_player
    rw [hcur]
    exact hm
  rw [move_player, if_pos hmem]
  simp only [search_copy, hcur, moved_state, switch_player]
  have h0 : ({ g.state with player1_pos := m } : GameState).player1_pos.1 = 0 := hr
  rw [check_win, if_pos h0]
  exact ⟨rfl, rfl⟩

/-- A legal Player-1 move that does not reach row 0 leaves an
invariant-satisfying non-terminal state non-terminal. -/
lemma move_child_nonterminal {g : Game} {m : Pos} (hinv : search_inv g.state)
    (hgo : g.state.game_over = false) (hcur : g.state.current_player = .P1)
    (hm : m ∈ get_valid_moves g.state .P1) (hr : m.1 ≠ 0) :
    (move_player (search_copy g) m).2.state.game_over = false := by
  obtain ⟨hbs, -, -, -, -, -, -, -, -, hflag⟩ := hinv
  obtain ⟨-, hrow2⟩ := hflag hgo
  have hmem : m ∈ get_valid_moves (search_copy g).state (search_copy g).state.current_player := by
    show m ∈ get_valid_moves g.state g.state.current_player
    rw [hcur]
    exact hm
  rw [move_player, if_pos hmem]
  simp only [search_copy, hcur, moved_state, switch_player]
  have hr' : ¬ (({ g.state with player1_pos := m } : GameState).player1_pos.1 = 0) := hr
  have h2' : ¬ (({ g.state with player1_pos := m } : GameState).player2_pos.1 =
      ({ g.state with player1_pos := m } : GameState).board_size - 1) := by
    show ¬ (g.state.player2_pos.1 = g.state.board_size - 1)
    intro h
    rw [hbs] at h
    apply hrow2
    omega
  rw [check_win, if_neg hr', if_neg h2']
  exact hgo

/-- Any one-ply move child of an invariant-satisfying non-terminal state
has minimax value at most the terminal win value of that ply. -/
lemma move_child_le (ai : QuoridorAI) (d : ℕ) {g : Game} (hinv : search_inv g.state)
    (hgo : g.state.game_over = false) :
    ∀ (m : Pos) (a b : Score) (mx : Bool),
      Score.sle (minimax ai d (move_player (search_copy g) m).2 a b mx)
        (.fin (1000 + (d : ℤ))) = true := by
  intro m a b mx
  by_cases hm : m ∈ get_valid_moves g.state g.state.current_player
  · have hcinv := search_inv_child hinv hgo hm
    by_cases hcg : (move_player (search_copy g) m).2.state.game_over = true
    · exact minimax_terminal_le hcg
    · exact Score.sle_fin_mono (minimax_bound ai d _ a b mx hcinv (by simpa using hcg))
        (by have := search_bound_le d; omega)
  · have he : (move_player (search_copy g) m).2 = search_copy g := by
      simp only [move_player, search_copy]
      rw [if_neg hm]
    rw [he]
    exact Score.sle_fin_mono (minimax_bound ai d (search_copy g) a b mx hinv hgo)
      (by have := search_bound_le d; omega)

/-- A legal wall child of an invariant-satisfying non-terminal state has
minimax value strictly inside the non-terminal bound. -/
lemma wall_child_le (ai : QuoridorAI) (d : ℕ) {g : Game} (hinv : search_inv g.state)
    (hgo : g.state.game_over = false) {w : Wall} (hc : can_place_wall g.state w = true) :
    ∀ (a b : Score) (mx : Bool),
      Score.sle (minimax ai d (place_wall (search_copy g) w).2 a b mx)
        (.fin (1000 + (d : ℤ))) = true := by
  intro a b mx
  obtain ⟨hcinv, hcgo⟩ := search_inv_wall_child hinv hgo hc
  exact Score.sle_fin_mono (minimax_bound ai d _ a b mx hcinv hcgo)
    (by have := search_bound_le d; omega)

/-- Once the running best score equals the terminal win value, the move
phase of the top-level selection never displaces the incumbent, provided
every remaining child scores no higher. -/
lemma top_loop_moves_keeps (ai : QuoridorAI) (d : ℕ) (g : Game) :
    ∀ (l : List Pos) (mv : Option AIMove) (α : Score),
      (∀ m ∈ l, ∀ a b : Score,
        Score.sle (minimax ai d (move_player (search_copy g) m).2 a b false)
          (.fin (1000 + (d : ℤ))) = true) →
      (top_loop_moves ai d g l (mv, .fin (1000 + (d : ℤ)), α)).1 = mv ∧
        (top_loop_moves ai d g l (mv, .fin (1000 + (d : ℤ)), α)).2.1 =
          .fin (1000 + (d : ℤ)) := by
  intro l
  induction l with
  | nil =>
    intro mv α _
    exact ⟨rfl, rfl⟩
  | cons m rest ih =>
    intro mv α h
    have hns := Score.not_slt_of_sle (h m (List.mem_cons_self m rest) α Score.posInf)
    simp only [top_loop_moves]
    split_ifs with hlt
    · simp [hns] at hlt
    · exact ih mv (Score.pymax α _) (fun m' hm' => h m' (List.mem_cons_of_mem _ hm'))

/-- Once the running best score equals the terminal win value, the wall
phase of the top-level selection also keeps the incumbent: every legal
wall child scores strictly inside the non-terminal bound. -/
lemma top_loop_walls_keeps (ai : QuoridorAI) (d : ℕ) (g : Game) :
    ∀ (l : List Wall) (mv : Option AIMove) (α : Score),
      (∀ w ∈ l, can_place_wall g.state w = true → ∀ a b : Score,
        Score.sle (minimax ai d (place_wall (search_copy g) w).2 a b false)
          (.fin (1000 + (d : ℤ))) = true) →
      (top_loop_walls ai d g l (mv, .fin (1000 + (d : ℤ)), α)).1 = mv := by
  intro l
  induction l with
  | nil =>
    intro mv α _
    rfl
  | cons w rest ih =>
    intro mv α h
    by_cases hcw : can_place_wall g.state w = true
    · have hns := Score.not_slt_of_sle (h w (List.mem_cons_self w rest) hcw α Score.posInf)
      simp only [top_loop_walls, hcw, if_true]
      split_ifs with hlt
      · simp [hns] at hlt
      · exact ih mv (Score.pymax α _) (fun w' hw' => h w' (List.mem_cons_of_mem _ hw'))
    · have hcw' : can_place_wall g.state w = false := by simpa using hcw
      simp only [top_loop_walls, hcw', Bool.false_eq_true, if_false]
      exact ih mv α (fun w' hw' => h w' (List.mem_cons_of_mem _ hw'))

/-- If every listed move either is a winning move (scoring exactly the
terminal win value for every window) or scores inside the non-terminal
bound, and at least one winning move is listed, the move phase selects a
winning move and records the win value as its best score. -/
lemma top_loop_moves_finds (ai : QuoridorAI) (d : ℕ) (g : Game) (P : Pos → Prop) :
    ∀ (l : List Pos) (best : Option AIMove) (s α : Score),
      (Score.sle s (.fin (search_bound d)) = true ∨ s = Score.negInf) →
      (∀ m ∈ l,
        (P m ∧ ∀ a b : Score, minimax ai d (move_player (search_copy g) m).2 a b false =
            .fin (1000 + (d : ℤ))) ∨
        (∀ a b : Score, Score.sle (minimax ai d (move_player (search_copy g) m).2 a b false)
            (.fin (search_bound d)) = true)) →
      (∃ m ∈ l, ∀ a b : Score, minimax ai d (move_player (search_copy g) m).2 a b false =
          .fin (1000 + (d : ℤ))) →
      ∃ m', m' ∈ l ∧ P m' ∧
        (top_loop_moves ai d g l (best, s, α)).1 = some (AIMove.move m') ∧
        (top_loop_moves ai d g l (best, s, α)).2.1 = .fin (1000 + (d : ℤ)) := by
  intro l
  induction l with
  | nil =>
    intro best s α _ _ hex
    exact absurd hex (by simp)
  | cons m rest ih =>
    intro best s α hbs hdich hex
    have hsb := search_bound_lt d
    rcases hdich m (List.mem_cons_self m rest) with ⟨hP, hW⟩ | hB
    · have hslt : Score.slt s
          (minimax ai d (move_player (search_copy g) m).2 α Score.posInf false) = true := by
        rw [hW α Score.posInf]
        rcases hbs with hbs | rfl
        · exact Score.slt_of_sle_lt hbs hsb
        · rfl
      simp only [top_loop_moves]
      rw [hslt]
      simp only [if_true]
      rw [hW α Score.posInf]
      have hkeep := top_loop_moves_keeps ai d g rest (some (AIMove.move m))
        (Score.pymax α (.fin (1000 + (d : ℤ))))
        (fun m' hm' a b => by
          rcases hdich m' (List.mem_cons_of_mem _ hm') with ⟨-, hW'⟩ | hB'
          · rw [hW' a b]
            simp [Score.sle]
          · exact Score.sle_fin_mono (hB' a b) (le_of_lt hsb))
      exact ⟨m, List.mem_cons_self m rest, hP, hkeep.1, hkeep.2⟩
    · obtain ⟨m₀, hm₀, hW₀⟩ := hex
      have hm₀rest : m₀ ∈ rest := by
        rcases List.mem_cons.mp hm₀ with heq | hmem
        · exfalso
          have h1 := hB α Score.posInf
          rw [heq] at hW₀
          rw [hW₀ α Score.posInf] at h1
          simp [Score.sle] at h1
          omega
        · exact hmem
      have hscb : Score.sle (minimax ai d (move_player (search_copy g) m).2 α Score.posInf false)
          (.fin (search_bound d)) = true := hB α Score.posInf
      simp only [top_loop_moves]
      split_ifs with hlt
      · obtain ⟨m', hm', hP', h1, h2⟩ := ih (some (AIMove.move m)) _ _ (Or.inl hscb)
          (fun m' hm' => hdich m' (List.mem_cons_of_mem _ hm')) ⟨m₀, hm₀rest, hW₀⟩
        exact ⟨m', List.mem_cons_of_mem _ hm', hP', h1, h2⟩
      · obtain ⟨m', hm', hP', h1, h2⟩ := ih best s _ hbs
          (fun m' hm' => hdich m' (List.mem_cons_of_mem _ hm')) ⟨m₀, hm₀rest, hW₀⟩
        exact ⟨m', List.mem_cons_of_mem _ hm', hP', h1, h2⟩

/-- Every reachable engine satisfies the connectivity invariant now and
after every possible sequence of undos. -/
lemma reachable_all_undos {g : Game} (h : Reachable g) : all_undos g.history g.state := by
  induction h with
  | init => exact conn_ok_initial
  | reset_step _ _ => exact conn_ok_initial
  | @move_step g p _ hacc ih =>
    have hmem : p ∈ get_valid_moves g.state g.state.current_player := (move_player_fst g p).mp hacc
    have hconn := all_undos_head ih
    obtain ⟨hv1, hv2, hp1, hp2⟩ := hconn
    have he : move_player g p = (true,
        ⟨switch_player (check_win (moved_state g.state g.state.current_player p)),
         MoveRecord.move g.state.current_player (pos_of g.state g.state.current_player) p ::
           g.history⟩) := by
      rw [move_player, if_pos hmem]
    rw [he]
    cases hcur : g.state.current_player with
    | P1 =>
      rw [hcur] at hmem
      have hbe : board_eq
          (switch_player (check_win (moved_state g.state Player.P1 p)))
          (moved_state g.state Player.P1 p) :=
        board_eq_trans (board_eq_switch_player _) (board_eq_check_win _)
      constructor
      · rw [conn_ok_congr hbe]
        simp only [conn_ok, moved_state]
        exact ⟨mem_get_valid_moves_valid hmem, hv2, has_path_transfer hmem hv1 hp1, hp2⟩
      · have hbe2 : board_eq
            (undo_apply (MoveRecord.move Player.P1 (pos_of g.state Player.P1) p)
              (switch_player (check_win (moved_state g.state Player.P1 p)))) g.state :=
          ⟨hbe.1, rfl, hbe.2.2.1, hbe.2.2.2⟩
        rw [all_undos_congr g.history hbe2]
        exact ih
    | P2 =>
      rw [hcur] at hmem
      have hbe : board_eq
          (switch_player (check_win (moved_state g.state Player.P2 p)))
          (moved_state g.state Player.P2 p) :=
        board_eq_trans (board_eq_switch_player _) (board_eq_check_win _)
      constructor
      · rw [conn_ok_congr hbe]
        simp only [conn_ok, moved_state]
        exact ⟨hv1, mem_get_valid_moves_valid hmem, hp1, has_path_transfer hmem hv2 hp2⟩
      · have hbe2 : board_eq
            (undo_apply (MoveRecord.move Player.P2 (pos_of g.state Player.P2) p)
              (switch_player (check_win (moved_state g.state Player.P2 p)))) g.state :=
          ⟨hbe.1, hbe.2.1, rfl, hbe.2.2.2⟩
        rw [all_undos_congr g.history hbe2]
        exact ih
  | @wall_step g w _ hacc ih =>
    have hc : can_place_wall g.state w = true := by
      rw [← place_wall_fst g w]
      exact hacc
    obtain ⟨-, -, hnm, -, hq1, hq2⟩ := (can_place_wall_iff' g.state w).mp hc
    have hconn := all_undos_head ih
    obtain ⟨hv1, hv2, hp1, hp2⟩ := hconn
    have herase : (insert w g.state.walls).erase w = g.state.walls := Finset.erase_insert hnm
    have he : place_wall g w = (true,
        ⟨switch_player (wall_placed_state g.state g.state.current_player w),
         MoveRecord.wall g.state.current_player w :: g.history⟩) := by
      rw [place_wall, if_pos hc]
    rw [he]
    cases hcur : g.state.current_player with
    | P1 =>
      constructor
      · simp only [conn_ok, switch_player, wall_placed_state]
        exact ⟨hv1, hv2, hq1, hq2⟩
      · have hbe2 : board_eq
            (undo_apply (MoveRecord.wall Player.P1 w)
              (switch_player (wall_placed_state g.state Player.P1 w))) g.state :=
          ⟨rfl, rfl, rfl, herase⟩
        rw [all_undos_congr g.history hbe2]
        exact ih
    | P2 =>
      constructor
      · simp only [conn_ok, switch_player, wall_placed_state]
        exact ⟨hv1, hv2, hq1, hq2⟩
      · have hbe2 : board_eq
            (undo_apply (MoveRecord.wall Player.P2 w)
              (switch_player (wall_placed_state g.state Player.P2 w))) g.state :=
          ⟨rfl, rfl, rfl, herase⟩
        rw [all_undos_congr g.history hbe2]
        exact ih
  | @undo_step g _ hacc ih =>
    cases hh : g.history with
    | nil =>
      rw [undo_move, hh] at hacc
      exact absurd hacc (by simp)
    | cons entry rest =>
      have he : undo_move g = (true, ⟨undo_apply entry g.state, rest⟩) := by
        rw [undo_move, hh]
      rw [he]
      rw [hh] at ih
      exact ih.2

/-! ### Claim theorems -/

/-- Claim C1: connectivity invariant: in every engine reachable from the
initial state through accepted move, wall and undo transitions (and
resets), the breadth-first search from each player's current position over
the 4-adjacency grid graph with wall-blocked edges removed reaches that
player's goal row — in particular this holds immediately after every
accepted wall placement, whose resulting engine is itself reachable. -/
theorem C1_connectivity_invariant :
    ∀ (g : Game), Reachable g →
      has_path_to_goal g.state.board_size g.state.walls g.state.player1_pos .P1 = true ∧
      has_path_to_goal g.state.board_size g.state.walls g.state.player2_pos .P2 = true := by
  intro g hg
  have h := all_undos_head (reachable_all_undos hg)
  exact ⟨h.2.2.1, h.2.2.2⟩

/-- Claim C1 witness: the invariant instantiated at the initial engine. -/
theorem C1_witness :
    has_path_to_goal initial_game.state.board_size initial_game.state.walls
        initial_game.state.player1_pos .P1 = true ∧
      has_path_to_goal initial_game.state.board_size initial_game.state.walls
        initial_game.state.player2_pos .P2 = true :=
  C1_connectivity_invariant initial_game Reachable.init

/-- Claim C2: `can_place_wall` returns true iff all of: the current player
has walls remaining; the anchor is within `[0, boardSize-1)` in both
coordinates; the wall is not already placed; it neither overlaps a
collinear same-orientation wall (same row for horizontal, same column for
vertical, anchors at distance at most 1) nor crosses a perpendicular wall
sharing the same anchor; and hypothetically inserting it leaves both
players a breadth-first-search-reachable path to their own goal rows. -/
theorem C2_can_place_wall_characterization :
    ∀ (s : GameState) (w : Wall),
      can_place_wall s w = true ↔
        (0 < get_current_player_walls s ∧
         (0 ≤ w.row ∧ w.row < s.board_size - 1 ∧ 0 ≤ w.col ∧ w.col < s.board_size - 1) ∧
         w ∉ s.walls ∧
         (∀ w' ∈ s.walls,
           ¬((w.orientation = w'.orientation ∧
               ((w.orientation = .horizontal ∧ w.row = w'.row ∧ |w.col - w'.col| ≤ 1) ∨
                (w.orientation = .vertical ∧ w.col = w'.col ∧ |w.row - w'.row| ≤ 1))) ∨
             (w.orientation ≠ w'.orientation ∧ w.row = w'.row ∧ w.col = w'.col))) ∧
         has_path_to_goal s.board_size (insert w s.walls) s.player1_pos .P1 = true ∧
         has_path_to_goal s.board_size (insert w s.walls) s.player2_pos .P2 = true) := by
  intro s w
  rw [can_place_wall_iff']
  simp only [walls_overlap_iff]

/-- Claim C3 counterexample: when the straight jump over the adjacent
opponent is blocked by a wall, a single cardinal direction (here: up)
contributes two destinations — the two side-step diagonals — so a
direction can contribute more than one destination. -/
theorem C3_counterexample_two_destinations_one_direction :
    ((-1 : ℤ), (0 : ℤ)) ∈ directions ∧
      1 < (moves_in_dir diag_demo_state .P1 ((-1 : ℤ), (0 : ℤ))).length ∧
      get_valid_moves diag_demo_state .P1 = [(3, 3), (3, 5), (5, 4), (4, 3), (4, 5)] := by
  decide

/-- Claim C3 (amended): every position returned by `get_valid_moves` is
within board bounds and is never the opponent's occupied cell; each
cardinal direction contributes at most two destinations, and at most one
unless the straight jump over the adjacent opponent in that direction is
off-board or wall-blocked (in which case the two side-step diagonals may
both appear). -/
theorem C3_valid_moves_shape :
    ∀ (s : GameState) (player : Player),
      (∀ q ∈ get_valid_moves s player,
        is_valid_position s.board_size q = true ∧ q ≠ pos_of s player.other) ∧
      (∀ d ∈ directions, (moves_in_dir s player d).length ≤ 2) ∧
      (∀ d ∈ directions,
        (step (pos_of s player) d = pos_of s player.other →
          (is_valid_position s.board_size (step (step (pos_of s player) d) d) &&
            !(is_wall_between s.walls (pos_of s player.other)
                (step (step (pos_of s player) d) d))) = true) →
        (moves_in_dir s player d).length ≤ 1) := by
  intro s player
  refine ⟨fun q hq => ?_, fun d _ => moves_in_dir_length_le_two s player d,
    fun d _ hj => moves_in_dir_length_le_one s player d hj⟩
  rw [get_valid_moves, List.mem_flatMap] at hq
  obtain ⟨d, hd, hq⟩ := hq
  exact ⟨mem_moves_in_dir_valid hq, mem_moves_in_dir_ne_opp hd hq⟩

/-- Claim C4 counterexample: the opponent is grid-adjacent (directly above)
and the cell beyond the opponent is on-board with the edge from the
opponent to it unblocked, yet the jump cell is not offered, because the
edge between the player and the opponent is itself severed by a wall. -/
theorem C4_counterexample_blocked_player_edge :
    step (pos_of blocked_edge_state .P1) ((-1 : ℤ), (0 : ℤ)) = pos_of blocked_edge_state .P2 ∧
      is_valid_position blocked_edge_state.board_size (2, 4) = true ∧
      is_wall_between blocked_edge_state.walls (pos_of blocked_edge_state .P2) (2, 4) = false ∧
      (2, 4) ∉ get_valid_moves blocked_edge_state .P1 := by
  decide

/-- Claim C4 (amended): whenever the opponent occupies the on-board cell
one step from the player in direction `d` and the edge between the player
and the opponent is unblocked, then: if the cell beyond the opponent is
on-board and the edge from the opponent to it is unblocked, the direction
contributes exactly the jump cell; otherwise it contributes exactly the
two perpendicular side-step diagonals filtered by their own bounds and
wall checks; and the opponent's cell itself is never returned. -/
theorem C4_jump_rule :
    ∀ (s : GameState) (player : Player) (d : Pos),
      d ∈ directions →
      step (pos_of s player) d = pos_of s player.other →
      is_valid_position s.board_size (pos_of s player.other) = true →
      is_wall_between s.walls (pos_of s player) (pos_of s player.other) = false →
      ((is_valid_position s.board_size (step (pos_of s player.other) d) &&
          !(is_wall_between s.walls (pos_of s player.other)
              (step (pos_of s player.other) d))) = true →
        moves_in_dir s player d = [step (pos_of s player.other) d]) ∧
      ((is_valid_position s.board_size (step (pos_of s player.other) d) &&
          !(is_wall_between s.walls (pos_of s player.other)
              (step (pos_of s player.other) d))) = false →
        moves_in_dir s player d = (side_step_cells (pos_of s player.other) d).filter
          (fun q => is_valid_position s.board_size q &&
            !(is_wall_between s.walls (pos_of s player.other) q))) ∧
      pos_of s player.other ∉ get_valid_moves s player := by
  intro s player d _ hadj hvalid hwall
  refine ⟨fun hj => ?_, fun hj => ?_, not_opp_mem_get_valid_moves s player⟩
  · simp only [moves_in_dir, hadj, hvalid, hwall, hj]
    simp
  · simp only [moves_in_dir, hadj, hvalid, hwall, hj]
    simp

/-- Claim C4 witness: in Scenario C (players vertically adjacent, nothing
blocked), the up direction contributes exactly the jump cell (2,4) and
Player 2's own cell is not a valid move of Player 1. -/
theorem C4_witness :
    moves_in_dir jump_demo_state .P1 ((-1 : ℤ), (0 : ℤ)) = [(2, 4)] ∧
      pos_of jump_demo_state Player.P1.other ∉ get_valid_moves jump_demo_state .P1 := by
  have h := C4_jump_rule jump_demo_state .P1 ((-1 : ℤ), (0 : ℤ))
    (by decide) (by decide) (by decide) (by decide)
  exact ⟨h.1 (by decide), h.2.2⟩

/-- Claim C9: on the fresh initial 9×9 state, the valid moves of Player 1
are exactly (7,4), (8,3) and (8,5); the southern cell is off-board. -/
theorem C9_initial_valid_moves :
    get_valid_moves initial_game.state .P1 = [(7, 4), (8, 3), (8, 5)] := by decide

/-- Claim C10: `can_place_wall` is a pure query: despite the internal swap
to a hypothetical cloned state, the engine observed afterwards (state and
undo history) is exactly the engine before the call, and the verdict
agrees with the plain legality predicate. -/
theorem C10_can_place_wall_pure :
    ∀ (g : Game) (w : Wall), can_place_wall_impl g w = (can_place_wall g.state w, g) := by
  intro g w
  unfold can_place_wall_impl can_place_wall
  repeat first
  | rfl
  | split

/-- Claim C7: rule violations are boolean refusals with no state change:
a move to a destination outside the current player's valid moves, a wall
rejected by `can_place_wall`, and an undo with empty history each return
`false` and leave the engine (state and history) unchanged. -/
theorem C7_boolean_refusal :
    ∀ (g : Game) (p : Pos) (w : Wall),
      (p ∉ get_valid_moves g.state g.state.current_player → move_player g p = (false, g)) ∧
      (can_place_wall g.state w = false → place_wall g w = (false, g)) ∧
      (g.history = [] → undo_move g = (false, g)) := by
  intro g p w
  refine ⟨fun h => ?_, fun h => ?_, fun h => ?_⟩
  · unfold move_player
    exact if_neg h
  · unfold place_wall
    simp [h]
  · unfold undo_move
    simp [h]

/-- Claim C5 counterexample: from a terminal state (Player 1 already on
row 0, terminal flag set), `move_player` still accepts a legal destination
and mutates the state, so an accepted transition does start from a
terminal state. -/
theorem C5_counterexample_terminal_move_accepted :
    terminal_move_game.state.game_over = true ∧
      (move_player terminal_move_game (1, 4)).1 = true ∧
      (move_player terminal_move_game (1, 4)).2 ≠ terminal_move_game := by decide

/-- Claim C5 (amended): the engine does not consult the terminal flag or
winner field at all: the acceptance of `move_player` and `place_wall` is
unchanged under any value of those fields, and equals the plain legality
check (membership in the valid moves, respectively `can_place_wall`), so
a legal mutation is accepted even from a terminal state and rejection of
post-win input is left to the caller. -/
theorem C5_terminal_flag_not_consulted :
    ∀ (g : Game) (b : Bool) (wn : Option Player) (p : Pos) (w : Wall),
      (move_player (set_flags g b wn) p).1 = (move_player g p).1 ∧
      (place_wall (set_flags g b wn) w).1 = (place_wall g w).1 ∧
      ((move_player g p).1 = true ↔ p ∈ get_valid_moves g.state g.state.current_player) ∧
      ((place_wall g w).1 = true ↔ can_place_wall g.state w = true) := by
  intro g b wn p w
  refine ⟨?_, ?_, move_player_fst g p, by rw [place_wall_fst]⟩
  · have A := move_player_fst (set_flags g b wn) p
    have B := move_player_fst g p
    have hm : get_valid_moves (set_flags g b wn).state (set_flags g b wn).state.current_player
        = get_valid_moves g.state g.state.current_player := get_valid_moves_flags g.state b wn _
    rw [hm] at A
    cases h1 : (move_player (set_flags g b wn) p).1 <;>
      cases h2 : (move_player g p).1 <;> simp_all
  · have A := place_wall_fst (set_flags g b wn) w
    have B := place_wall_fst g w
    have hm : can_place_wall (set_flags g b wn).state w = can_place_wall g.state w :=
      can_place_wall_flags g.state b wn w
    rw [A, B, hm]

/-- Claim C6 counterexample: from a terminal state, placing a legal wall
and undoing it does not restore the state: the undo clears the terminal
flag and winner unconditionally. -/
theorem C6_counterexample_roundtrip_loses_flags :
    (place_wall terminal_wall_game small_wall).1 = true ∧
      (undo_move (place_wall terminal_wall_game small_wall).2).2 ≠ terminal_wall_game := by
  decide

/-- Claim C6 (amended): on every state whose terminal flag is unset and
winner is empty, an accepted `place_wall` followed by `undo_move` restores
the engine exactly (every state field and the history). -/
theorem C6_place_wall_undo_roundtrip :
    ∀ (g : Game) (w : Wall), g.state.game_over = false → g.state.winner = none →
      (place_wall g w).1 = true →
      undo_move (place_wall g w).2 = (true, g) := by
  intro g w hgo hwin hacc
  have hc : can_place_wall g.state w = true := by
    rw [← place_wall_fst g w]
    exact hacc
  have hnm : w ∉ g.state.walls := can_place_wall_not_mem hc
  obtain ⟨s, hist⟩ := g
  obtain ⟨bs, p1, p2, w1, w2, ws, cur, go, win⟩ := s
  simp only at hgo hwin hnm hc
  subst hgo hwin
  cases cur <;>
    simp [place_wall, wall_placed_state, undo_move, undo_apply, switch_player, Player.other, hc,
      Finset.erase_insert hnm]

/-- Claim C6 witness: a concrete non-terminal 2×2 state on which the
round-trip theorem applies. -/
theorem C6_witness :
    undo_move (place_wall small_game small_wall).2 = (true, small_game) :=
  C6_place_wall_undo_roundtrip small_game small_wall rfl rfl (by decide)

/-- Claim C8 counterexample: on a state whose terminal flag and winner are
already set, Player 1 still has the legal winning move (0,5) to row 0 and
it is Player 1's turn, yet the depth-1 Player-1 searcher returns the first
enumerated move (2,4) instead of the winning move: every child of a
decided game scores the same terminal value, and ties keep the incumbent. -/
theorem C8_counterexample_terminal_tiebreak :
    ((0, 5) : Pos) ∈ get_valid_moves terminal_minimax_game.state .P1 ∧
      ((0, 5) : Pos).1 = 0 ∧
      terminal_minimax_game.state.current_player = .P1 ∧
      1 ≤ (1 : ℕ) ∧
      get_minimax_move (fun l => l) ⟨.P1, 1⟩ terminal_minimax_game =
        some (AIMove.move (2, 4)) ∧
      ((2 : ℤ), (4 : ℤ)).1 ≠ 0 := by
  decide

/-- Claim C8 (amended): on an invariant-satisfying non-terminal 9×9 state
in which it is Player 1's turn and some legal move reaches row 0, the
Player-1 searcher at any depth ≥ 1 (and any wall sampling) returns a
winning move: a legal move onto row 0 whose minimax score is the terminal
win value `1000 + (max_depth - 1) ≥ 1000` for every search window. -/
theorem C8_winning_move_selected (sample : List Wall → List Wall) (ai : QuoridorAI)
    (g : Game) (hP1 : ai.player = .P1) (hd : 1 ≤ ai.max_depth)
    (hinv : search_inv g.state) (hgo : g.state.game_over = false)
    (hcur : g.state.current_player = .P1)
    (hex : ∃ m ∈ get_valid_moves g.state .P1, m.1 = 0) :
    ∃ m', m' ∈ get_valid_moves g.state .P1 ∧ m'.1 = 0 ∧
      get_minimax_move sample ai g = some (AIMove.move m') ∧
      (∀ (α β : Score) (mx : Bool),
        minimax ai (ai.max_depth - 1) (move_player (search_copy g) m').2 α β mx =
          .fin (1000 + ((ai.max_depth - 1 : ℕ) : ℤ))) ∧
      (1000 : ℤ) ≤ 1000 + ((ai.max_depth - 1 : ℕ) : ℤ) := by
  have hgvm : get_valid_moves g.state g.state.current_player =
      get_valid_moves g.state .P1 := by rw [hcur]
  have hdich : ∀ m ∈ get_valid_moves g.state .P1,
      ((m.1 = 0 ∧ ∀ (α β : Score) (mx : Bool),
          minimax ai (ai.max_depth - 1) (move_player (search_copy g) m).2 α β mx =
            .fin (1000 + ((ai.max_depth - 1 : ℕ) : ℤ))) ∧
        ∀ a b : Score,
          minimax ai (ai.max_depth - 1) (move_player (search_copy g) m).2 a b false =
            .fin (1000 + ((ai.max_depth - 1 : ℕ) : ℤ))) ∨
      (∀ a b : Score,
        Score.sle (minimax ai (ai.max_depth - 1) (move_player (search_copy g) m).2 a b false)
          (.fin (search_bound (ai.max_depth - 1))) = true) := by
    intro m hm
    by_cases hr : m.1 = 0
    · obtain ⟨hterm, hwin⟩ := move_child_win hcur hm hr
      have hval : ∀ (α β : Score) (mx : Bool),
          minimax ai (ai.max_depth - 1) (move_player (search_copy g) m).2 α β mx =
            .fin (1000 + ((ai.max_depth - 1 : ℕ) : ℤ)) := by
        intro α β mx
        exact minimax_win hterm (by rw [hwin, hP1])
      exact Or.inl ⟨⟨hr, hval⟩, fun a b => hval a b false⟩
    · have hterm := move_child_nonterminal hinv hgo hcur hm hr
      have hcinv := search_inv_child hinv hgo (by rw [hgvm]; exact hm)
      exact Or.inr (fun a b => minimax_bound ai (ai.max_depth - 1) _ a b false hcinv hterm)
  have hexW : ∃ m ∈ get_valid_moves g.state .P1, ∀ a b : Score,
      minimax ai (ai.max_depth - 1) (move_player (search_copy g) m).2 a b false =
        .fin (1000 + ((ai.max_depth - 1 : ℕ) : ℤ)) := by
    obtain ⟨m, hm, hr⟩ := hex
    rcases hdich m hm with ⟨⟨-, -⟩, hvalf⟩ | hB
    · exact ⟨m, hm, hvalf⟩
    · exfalso
      obtain ⟨hterm, hwin⟩ := move_child_win hcur hm hr
      have h1 := hB Score.negInf Score.negInf
      rw [minimax_win hterm (by rw [hwin, hP1])] at h1
      simp [Score.sle] at h1
      have := search_bound_lt (ai.max_depth - 1)
      omega
  rw [← hgvm] at hdich hexW
  obtain ⟨m', hm'mem, ⟨hr', hval'⟩, h1, h2⟩ :=
    top_loop_moves_finds ai (ai.max_depth - 1) g
      (fun m => m.1 = 0 ∧ ∀ (α β : Score) (mx : Bool),
        minimax ai (ai.max_depth - 1) (move_player (search_copy g) m).2 α β mx =
          .fin (1000 + ((ai.max_depth - 1 : ℕ) : ℤ)))
      (get_valid_moves g.state g.state.current_player) none Score.negInf Score.negInf
      (Or.inr rfl) hdich hexW
  have hacc1 : top_loop_moves ai (ai.max_depth - 1) g
      (get_valid_moves g.state g.state.current_player) (none, Score.negInf, Score.negInf) =
      (some (AIMove.move m'), .fin (1000 + ((ai.max_depth - 1 : ℕ) : ℤ)),
        (top_loop_moves ai (ai.max_depth - 1) g
          (get_valid_moves g.state g.state.current_player)
          (none, Score.negInf, Score.negInf)).2.2) :=
    Prod.ext h1 (Prod.ext h2 rfl)
  have hkeepw := top_loop_walls_keeps ai (ai.max_depth - 1) g
    (if 0 < get_current_player_walls g.state then get_strategic_walls sample ai g else [])
    (some (AIMove.move m'))
    ((top_loop_moves ai (ai.max_depth - 1) g
      (get_valid_moves g.state g.state.current_player)
      (none, Score.negInf, Score.negInf)).2.2)
    (fun w _ hcw a b => wall_child_le ai (ai.max_depth - 1) hinv hgo hcw a b false)
  refine ⟨m', by rw [hgvm] at hm'mem; exact hm'mem, hr', ?_, hval', by omega⟩
  simp only [get_minimax_move]
  rw [hacc1, hkeepw]

/-- Claim C8 witness: on the concrete one-move-from-victory position
(Player 1 at (1,4), Player 2 at (5,4), no walls), the depth-1 Player-1
searcher with identity sampling returns a legal winning move onto row 0
scoring the terminal win value. -/
theorem C8_witness :
    ∃ m', m' ∈ get_valid_moves minimax_demo_game.state .P1 ∧ m'.1 = 0 ∧
      get_minimax_move (fun l => l) ⟨.P1, 1⟩ minimax_demo_game = some (AIMove.move m') ∧
      (∀ (α β : Score) (mx : Bool),
        minimax ⟨.P1, 1⟩ 0 (move_player (search_copy minimax_demo_game) m').2 α β mx =
          .fin (1000 + ((0 : ℕ) : ℤ))) ∧
      (1000 : ℤ) ≤ 1000 + ((0 : ℕ) : ℤ) :=
  C8_winning_move_selected (fun l => l) ⟨.P1, 1⟩ minimax_demo_game rfl (le_refl 1)
    ⟨rfl, by decide, by decide,
      has_path_iff.mpr ⟨(0, 4), reaches_step 9 ∅ _ (0, 4) _ (by decide)
        Relation.ReflTransGen.refl, rfl⟩,
      has_path_iff.mpr ⟨(8, 4), reaches_step 9 ∅ _ (6, 4) _ (by decide)
        (reaches_step 9 ∅ _ (7, 4) _ (by decide) (reaches_step 9 ∅ _ (8, 4) _ (by decide)
          Relation.ReflTransGen.refl)), rfl⟩,
      by decide, by decide, by decide, by decide,
      fun _ => ⟨by decide, by decide⟩⟩
    rfl rfl ⟨(0, 4), by decide, rfl⟩

end Quoridor
